import Mathlib

/-!
A shallow embedding of the trace-parsing engine of `cr2/thermal.py`
(repository Elieva/lisa).  Python strings are modelled as `List Char`;
the regular-expression searches used by the source are embedded as
executable scanning functions that realise the leftmost, greedy
(backtracking) semantics of the concrete patterns appearing in the
source.  Fallible steps (Python exceptions) are modelled with `Option`.
-/

namespace Thermal

abbrev Str := List Char

/-- Open-brace character. -/
def lbrace : Char := '\x7b'

/-- Close-brace character. -/
def rbrace : Char := '\x7d'

/-- Characters matched by the regex character class of letters, digits and
underscore used throughout the source patterns. -/
def alnumU (c : Char) : Bool := c.isAlphanum || c == '_'

/-- Tail of the two array patterns: one or more non-close-brace characters
followed by a close brace.  The greedy repetition takes the maximal run of
non-close-brace characters; shrinking it can never help because the next
character would still not be a close brace.  Returns the number of consumed
characters, or `none` when the tail does not match here. -/
def arrTailLen (s : Str) : Option Nat :=
  let t := s.takeWhile (fun c => decide (c ≠ rbrace))
  if t.isEmpty then none
  else if s[t.length]? = some rbrace then some (t.length + 1) else none

/-- Backtracking over the split point of the explode pattern (one or more
non-space characters, then an equals sign, an open brace, the array tail):
the greedy first group tries the longest feasible prefix first, so the
split point `p` (index of the equals sign) is tried from high to low.
`tryJs t p` tries split points `p, p-1, …, 1`. -/
def tryJs (t : Str) : Nat → Option Nat
  | 0 => none
  | p + 1 =>
    if t[p + 1]? = some '=' ∧ t[p + 2]? = some lbrace then
      match arrTailLen (t.drop (p + 3)) with
      | some tl => some (p + 3 + tl)
      | none => tryJs t p
    else tryJs t p

/-- Match of the explode pattern of `trace_parser_explode_array` at the head
of `t`; returns the match length.  The first group is a nonempty run of
non-space characters, so every split point lies inside the maximal
non-space prefix. -/
def matchArrAt (t : Str) : Option Nat :=
  let r := t.takeWhile (fun c => decide (c ≠ ' '))
  if r.isEmpty then none else tryJs t (r.length - 1)

/-- Leftmost search of the explode pattern: `re.search` tries every start
position from the left.  Returns (text before the match, the match, text
after the match). -/
def searchArrAux : Str → Str → Option (Str × Str × Str)
  | _, [] => none
  | pre, c :: rest =>
    match matchArrAt (c :: rest) with
    | some len => some (pre.reverse, (c :: rest).take len, (c :: rest).drop len)
    | none => searchArrAux (c :: pre) rest

/-- Python `str.split(sep)` with an explicit one-character separator: no
collapsing of adjacent separators, an empty string yields one empty chunk. -/
def splitSepAux (sep : Char) : Str → Str → List Str
  | [], acc => [acc.reverse]
  | c :: rest, acc =>
    if c = sep then acc.reverse :: splitSepAux sep rest []
    else splitSepAux sep rest (c :: acc)

/-- Python `str.split(sep)`. -/
def splitSep (sep : Char) (s : Str) : List Str := splitSepAux sep s []

/-- The `split` on a single space used by the source. -/
def splitOnSpace (s : Str) : List Str := splitSep ' ' s

/-- Decimal digit character. -/
def digitChar : Nat → Char
  | 0 => '0'
  | 1 => '1'
  | 2 => '2'
  | 3 => '3'
  | 4 => '4'
  | 5 => '5'
  | 6 => '6'
  | 7 => '7'
  | 8 => '8'
  | _ => '9'

/-- Helper for `natDigits`, with fuel (the number of digits of `n` is at
most `n + 1`, so the fuel never runs out when started at `n + 1`). -/
def natDigitsF : Nat → Nat → Str → Str
  | 0, _, acc => acc
  | f + 1, n, acc =>
    if n < 10 then digitChar n :: acc
    else natDigitsF f (n / 10) (digitChar (n % 10) :: acc)

/-- Decimal rendering of a natural number, modelling the Python string
formatting of the array index in `trace_parser_explode_array`. -/
def natDigits (n : Nat) : Str := natDigitsF (n + 1) n []

/-- Concatenation of tokens, each followed by one space: the source builds
the exploded string this way and strips the final space afterwards. -/
def sepJoinTrail : List Str → Str
  | [] => []
  | t :: ts => t ++ ' ' :: sepJoinTrail ts

/-- One iteration of the rewrite loop of `trace_parser_explode_array`:
find the leftmost array occurrence, split its elements, emit the indexed
scalars (padding with value 0 up to the expected length), and splice the
emitted text in place of the match.  `array_lengths` is modelled as a total
map: the only call site passes a `defaultdict(int)`, whose lookups default
to 0.  The base name is everything before the first equals sign of the
match; the values string is everything between the first open brace and the
last close brace of the match. -/
def explodeStep (array_lengths : Str → Nat) (s : Str) : Option Str :=
  match searchArrAux [] s with
  | none => none
  | some (before, m, after) =>
    let col_basename := m.takeWhile (fun c => decide (c ≠ '='))
    let vals_str := ((m.dropWhile (fun c => decide (c ≠ lbrace))).drop 1).dropLast
    let vals_array := splitOnSpace vals_str
    let idxTokens := vals_array.enum.map
      (fun iv => col_basename ++ natDigits iv.1 ++ '=' :: iv.2)
    let padTokens :=
      if vals_array.length < array_lengths col_basename then
        (List.range' vals_array.length (array_lengths col_basename - vals_array.length)).map
          (fun i => col_basename ++ natDigits i ++ ['=', '0'])
      else []
    let exploded_str := (sepJoinTrail (idxTokens ++ padTokens)).dropLast
    some (before ++ exploded_str ++ after)

/-- The while-loop of `trace_parser_explode_array`, with fuel.  Each
iteration of the source loop consumes the leftmost array occurrence; on
well-formed input every iteration strictly decreases the number of open
braces, so the fuel below never runs out there. -/
def explodeFuel (array_lengths : Str → Nat) : Nat → Str → Str
  | 0, s => s
  | n + 1, s =>
    match explodeStep array_lengths s with
    | none => s
    | some s2 => explodeFuel array_lengths n s2

/-- `trace_parser_explode_array` from the source: explode every array
occurrence of the string into indexed scalar fields. -/
def trace_parser_explode_array (s : Str) (array_lengths : Str → Nat) : Str :=
  explodeFuel array_lengths (s.count lbrace + 1) s

/-- Match, at the head of `t`, of the prescanner pattern of
`get_trace_array_lengths` (a nonempty run of word characters, an equals
sign, an open brace, the array tail).  The first group is greedy and a
shorter run would be followed by a word character rather than the equals
sign, so only the maximal run can match.  Returns the two groups (name and
elements) and the match length. -/
def matchNamedAt (t : Str) : Option (Str × Str × Nat) :=
  let r := t.takeWhile alnumU
  if r.isEmpty then none
  else if t[r.length]? = some '=' ∧ t[r.length + 1]? = some lbrace then
    match arrTailLen (t.drop (r.length + 2)) with
    | some tl =>
      some (r, (t.drop (r.length + 2)).takeWhile (fun c => decide (c ≠ rbrace)),
            r.length + 2 + tl)
    | none => none
  else none

/-- Leftmost search of the prescanner pattern; returns both groups and the
rest of the line after the match (the source continues scanning there). -/
def searchNamedAux : Str → Option (Str × Str × Str)
  | [] => none
  | c :: rest =>
    match matchNamedAt (c :: rest) with
    | some (nm, elems, len) => some (nm, elems, (c :: rest).drop len)
    | none => searchNamedAux rest

/-- The inner while-loop of `get_trace_array_lengths` on one line: list, in
order, each array occurrence as (name, element count), where the element
count is the length of the split of the elements group on single spaces.
Each iteration consumes at least the open brace of its match, so the fuel
below suffices. -/
def scanLineFuel : Nat → Str → List (Str × Nat)
  | 0, _ => []
  | n + 1, line =>
    match searchNamedAux line with
    | none => []
    | some (nm, elems, after) =>
      (nm, (splitOnSpace elems).length) :: scanLineFuel n after

/-- All array occurrences of one line, in scan order. -/
def scanLine (line : Str) : List (Str × Nat) :=
  scanLineFuel (line.count lbrace + 1) line

/-- Association-list lookup for the width dictionary. -/
def dictFind (m : List (Str × Nat)) (key : Str) : Option Nat :=
  match m with
  | [] => none
  | (k, v) :: rest => if k = key then some v else dictFind rest key

/-- Read with the `defaultdict(int)` default. -/
def dictGet (m : List (Str × Nat)) (key : Str) : Nat := (dictFind m key).getD 0

/-- Replace the value of an existing key, or append the binding. -/
def dictSet (m : List (Str × Nat)) (key : Str) (v : Nat) : List (Str × Nat) :=
  match m with
  | [] => [(key, v)]
  | (k, w) :: rest =>
    if k = key then (k, v) :: rest else (k, w) :: dictSet rest key v

/-- The body `if array_len > ret[array_name]: ret[array_name] = array_len`
of the prescanner: reading a `defaultdict(int)` inserts the key with value
0 when absent, and the conditional assignment then raises it to the
maximum. -/
def updateMax (m : List (Str × Nat)) (nm : Str) (k : Nat) : List (Str × Nat) :=
  let m1 := if (dictFind m nm).isSome then m else m ++ [(nm, 0)]
  if k > dictGet m1 nm then dictSet m1 nm k else m1

/-- A character of the modelled regex fragment used for `unique_word`: the
source passes `unique_word` to `re.search` as a pattern, so metacharacters
are interpreted.  The fragment modelled here has literal characters and the
any-character dot (which does not match a newline); it is faithful to
Python `re` exactly on patterns whose characters are either the dot or
non-metacharacters (see `isReMeta`), and every theorem below invokes it
only on such patterns.  The markers used by the program contain no
metacharacter other than the dot of the counterexample. -/
inductive RChar where
  | dot : RChar
  | lit : Char → RChar
deriving DecidableEq

/-- The characters that are special in a Python `re` pattern (the set
`re.escape` protects): `. ^ $ * + ?` braces, brackets, backslash, bar and
parentheses.  A pattern free of all of these is matched by `re.search`
exactly as a literal substring. -/
def isReMeta (c : Char) : Bool :=
  c = '.' || c = '^' || c = '$' || c = '*' || c = '+' || c = '?' ||
  c = lbrace || c = rbrace || c = '[' || c = ']' || c = '\\' || c = '|' ||
  c = '(' || c = ')'

/-- Compile a pattern string of the modelled fragment. -/
def parsePat (p : Str) : List RChar :=
  p.map (fun c => if c = '.' then RChar.dot else RChar.lit c)

/-- Anchored match of a compiled pattern at the head of a string. -/
def rMatchAt : List RChar → Str → Bool
  | [], _ => true
  | _ :: _, [] => false
  | RChar.dot :: ps, c :: cs => decide (c ≠ '\n') && rMatchAt ps cs
  | RChar.lit a :: ps, c :: cs => (a == c) && rMatchAt ps cs

/-- Unanchored `re.search` of a compiled pattern, as a Boolean. -/
def rSearch (ps : List RChar) : Str → Bool
  | [] => rMatchAt ps []
  | c :: cs => rMatchAt ps (c :: cs) || rSearch ps cs

/-- The line filter: `re.search(self.unique_word, line)`, used identically
by the prescanner and by the csv parser. -/
def lineSelected (uw line : Str) : Bool := rSearch (parsePat uw) line

/-- `get_trace_array_lengths` from the source: for every line selected by
`unique_word`, fold every array occurrence into the running maxima. -/
def get_trace_array_lengths (uw : Str) (lines : List Str) : List (Str × Nat) :=
  lines.foldl
    (fun ret line =>
      if lineSelected uw line then
        (scanLine line).foldl (fun m p => updateMax m p.1 p.2) ret
      else ret)
    []

/-- Match, at the head of `t`, of the empty-array pattern
`pat_empty_array` of the source (a nonempty run of word characters, an
equals sign, an open brace, a close brace, and a trailing space).  Returns
the match length, always at least 4. -/
def matchEmptyAt (t : Str) : Option Nat :=
  let r := t.takeWhile alnumU
  if r.isEmpty then none
  else if t[r.length]? = some '=' ∧ t[r.length + 1]? = some lbrace ∧
          t[r.length + 2]? = some rbrace ∧ t[r.length + 3]? = some ' ' then
    some (r.length + 4)
  else none

/-- Helper for `subEmpty`, with fuel.  Every step consumes at least one
character of the remaining text, so fuel `length + 1` never runs out. -/
def subEmptyF : Nat → Str → Str
  | 0, s => s
  | _ + 1, [] => []
  | n + 1, c :: rest =>
    match matchEmptyAt (c :: rest) with
    | some len => subEmptyF n (rest.drop (len - 1))
    | none => c :: subEmptyF n rest

/-- `re.sub(pat_empty_array, "", data_str)`: remove every non-overlapping
leftmost match, continuing the scan after each removed match.  The length
of a match is at least 4, so dropping `len - 1` of the tail reproduces
dropping `len` of the whole. -/
def subEmpty (s : Str) : Str := subEmptyF (s.length + 1) s

/-- Match, at the head of `t`, of the timestamp pattern `pat_timestamp`
(digits, a dot, digits, a colon); returns the first group. -/
def matchTsAt (t : Str) : Option Str :=
  let d1 := t.takeWhile Char.isDigit
  if d1.isEmpty then none
  else if t[d1.length]? = some '.' then
    let rest := t.drop (d1.length + 1)
    let d2 := rest.takeWhile Char.isDigit
    if d2.isEmpty then none
    else if rest[d2.length]? = some ':' then some (d1 ++ '.' :: d2) else none
  else none

/-- Leftmost search of the timestamp pattern. -/
def searchTsAux : Str → Option Str
  | [] => none
  | c :: rest =>
    match matchTsAt (c :: rest) with
    | some g => some g
    | none => searchTsAux rest

/-- Match, at the head of `t`, of the payload-start pattern (a nonempty run
of word characters followed by an equals sign). -/
def matchKeyEqAt (t : Str) : Bool :=
  let r := t.takeWhile alnumU
  !r.isEmpty && (t[r.length]? == some '=')

/-- Leftmost search of the payload-start pattern; returns the suffix of the
line from the match start (the source slices the line at `.start()`). -/
def searchKeyEqAux : Str → Option Str
  | [] => none
  | c :: rest =>
    if matchKeyEqAt (c :: rest) then some (c :: rest) else searchKeyEqAux rest

/-- Match of the header pattern `pat_header` (word characters, an equals
sign, then one or more non-space characters) at the head of `t`: returns
the first group (the key) and the match length. -/
def matchHdrAt (t : Str) : Option (Str × Nat) :=
  let r := t.takeWhile alnumU
  if r.isEmpty then none
  else if t[r.length]? = some '=' then
    let v := (t.drop (r.length + 1)).takeWhile (fun c => decide (c ≠ ' '))
    if v.isEmpty then none else some (r, r.length + 1 + v.length)
  else none

/-- Helper for `subHeader`, with fuel (each step consumes at least one
character). -/
def subHeaderF : Nat → Str → Str
  | 0, s => s
  | _ + 1, [] => []
  | n + 1, c :: rest =>
    match matchHdrAt (c :: rest) with
    | some (r, len) => r ++ subHeaderF n (rest.drop (len - 1))
    | none => c :: subHeaderF n rest

/-- `re.sub(pat_header, group 1, data_str)`: replace each match by its key. -/
def subHeader (s : Str) : Str := subHeaderF (s.length + 1) s

/-- Match of the data pattern `pat_data` (word characters, an equals sign,
then one or more characters that are neither a space nor an open brace) at
the head of `t`: returns the first group (the value) and the match length. -/
def matchDataAt (t : Str) : Option (Str × Nat) :=
  let r := t.takeWhile alnumU
  if r.isEmpty then none
  else if t[r.length]? = some '=' then
    let v := (t.drop (r.length + 1)).takeWhile
      (fun c => decide (c ≠ ' ') && decide (c ≠ lbrace))
    if v.isEmpty then none else some (v, r.length + 1 + v.length)
  else none

/-- Helper for `subData`, with fuel (each step consumes at least one
character). -/
def subDataF : Nat → Str → Str
  | 0, s => s
  | _ + 1, [] => []
  | n + 1, c :: rest =>
    match matchDataAt (c :: rest) with
    | some (v, len) => v ++ subDataF n (rest.drop (len - 1))
    | none => c :: subDataF n rest

/-- `re.sub(pat_data, group 1, data_str)`: replace each match by its value. -/
def subData (s : Str) : Str := subDataF (s.length + 1) s

/-- `re.sub(",", "", s)`. -/
def stripCommas (s : Str) : Str := s.filter (fun c => decide (c ≠ ','))

/-- `re.sub(" ", ",", s)`. -/
def spaceToComma (s : Str) : Str := s.map (fun c => if c = ' ' then ',' else c)

/-- The per-line loop of `__parse_into_csv`.  Input lines carry their
trailing newline (the source strips it with `line[:-1]` after the filter).
A selected line without a timestamp or without a key-equals occurrence
makes the source raise; this is modelled by returning `none`. -/
def parseLoop (uw : Str) (array_lengths : Str → Nat) :
    List Str → Str → Str → Option Str
  | [], _, csv => some csv
  | line :: rest, header, csv =>
    if lineSelected uw line then
      let l2 := line.dropLast
      match searchTsAux l2, searchKeyEqAux l2 with
      | some ts, some dstr =>
        let d2 := trace_parser_explode_array (subEmpty dstr) array_lengths
        let hc :=
          if header.isEmpty then
            let h := "Time,".toList ++ spaceToComma (subHeader d2) ++ ['\n']
            (h, h)
          else (header, csv)
        let row := spaceToComma (stripCommas (subData d2))
        parseLoop uw array_lengths rest hc.1 (hc.2 ++ ts ++ ',' :: row ++ ['\n'])
      | _, _ => none
    else parseLoop uw array_lengths rest header csv

/-- `__parse_into_csv` from the source: compute the array widths with the
prescanner, then turn every selected line into a csv row (deriving the
header from the first selected line). -/
def parse_into_csv (uw : Str) (lines : List Str) : Option Str :=
  parseLoop uw (fun nm => dictGet (get_trace_array_lengths uw lines) nm)
    lines [] []

/-- Split a text into lines at newline characters, dropping the final empty
chunk produced by a trailing newline. -/
def splitLines (s : Str) : List Str :=
  let parts := splitSep '\n' s
  if parts.getLast? = some [] then parts.dropLast else parts

/-- Value of a run of decimal digit characters. -/
def digitsToNat (s : Str) : Nat := s.foldl (fun a c => a * 10 + (c.toNat - 48)) 0

/-- The numeric value of a Time cell of the csv (decimal digits, a dot,
decimal digits), modelled exactly with rational numbers in place of the
floating-point column of the data frame. -/
def parseTimeRat (s : Str) : ℚ :=
  let ip := s.takeWhile Char.isDigit
  let fp := s.drop (ip.length + 1)
  (digitsToNat ip : ℚ) + (digitsToNat fp : ℚ) / ((10 : ℚ) ^ fp.length)

/-- The materialized table: after `set_index("Time")` the Time values are
the index and the remaining columns keep their cell text. -/
structure DataFrame where
  cols : List Str
  timeIdx : List ℚ
  rows : List (List Str)
deriving DecidableEq

/-- `__create_data_frame` from the source: an empty csv yields an
explicitly empty frame; otherwise the csv is read with the first line as
header and the first column (Time) as index. -/
def create_data_frame (csv : Str) : DataFrame :=
  if csv.isEmpty then ⟨[], [], []⟩
  else
    match splitLines csv with
    | [] => ⟨[], [], []⟩
    | hline :: rlines =>
      let rows := rlines.map (splitSep ',')
      { cols := (splitSep ',' hline).drop 1
        timeIdx := rows.map (fun r => parseTimeRat (r.headD []))
        rows := rows.map (fun r => r.drop 1) }

/-- `normalize_time` from the source: reset the index, subtract `basetime`
from the Time column, and set the index again — the net effect is a
pointwise shift of the index. -/
def normalize_time (df : DataFrame) (basetime : ℚ) : DataFrame :=
  { df with timeIdx := df.timeIdx.map (fun t => t - basetime) }

/-- Outcome of the construction-time acquisition of the trace text. -/
inductive AcquireOutcome where
  | usedCachedText : AcquireOutcome
  | ranCapture : AcquireOutcome
  | sourceUnavailable : AcquireOutcome
deriving DecidableEq

/-- The acquisition logic of `BaseThermal.__init__` together with
`__run_trace_cmd_report`: when the cached text dump exists the capture step
is not invoked; otherwise the capture tool runs only when the raw capture
source exists; when neither exists the source raises an IOError, modelled
as `sourceUnavailable`. -/
def acquireTraceText (traceTxtExists traceDatExists : Bool) : AcquireOutcome :=
  if traceTxtExists then AcquireOutcome.usedCachedText
  else if traceDatExists then AcquireOutcome.ranCapture
  else AcquireOutcome.sourceUnavailable

/-! ### Structured model of well-formed trace lines

The spec's data model: a line is a sequence of tokens, each either a plain
scalar token or an array field with a base name and a list of elements.
`renderToks` produces the concrete line text the parser consumes. -/

/-- A payload token. -/
inductive Tok where
  | scalar : Str → Tok
  | arr : Str → List Str → Tok
deriving DecidableEq

/-- Join chunks with single spaces (no trailing separator). -/
def sepJoin : List Str → Str
  | [] => []
  | [t] => t
  | t :: u :: ts => t ++ ' ' :: sepJoin (u :: ts)

/-- Concrete text of one token. -/
def renderTok : Tok → Str
  | Tok.scalar t => t
  | Tok.arr nm es => nm ++ '=' :: lbrace :: (sepJoin es ++ [rbrace])

/-- Concrete text of a token sequence. -/
def renderToks (toks : List Tok) : Str := sepJoin (toks.map renderTok)

/-- Characters allowed in scalar tokens and array elements: anything that
is not a space and not a brace. -/
def plainChar (c : Char) : Bool :=
  decide (c ≠ ' ') && decide (c ≠ lbrace) && decide (c ≠ rbrace)

/-- A well-formed scalar token: nonempty, space- and brace-free. -/
def scalarOk (t : Str) : Bool := !t.isEmpty && t.all plainChar

/-- A well-formed array name: nonempty, word characters only. -/
def nameOk (nm : Str) : Bool := !nm.isEmpty && nm.all alnumU

/-- A well-formed array element: nonempty, space- and brace-free. -/
def elemOk (e : Str) : Bool := !e.isEmpty && e.all plainChar

/-- Token well-formedness (the spec's well-formed input precondition). -/
def wfTok : Tok → Bool
  | Tok.scalar t => scalarOk t
  | Tok.arr nm es => nameOk nm && !es.isEmpty && es.all elemOk

/-- Line well-formedness. -/
def wfLine (toks : List Tok) : Bool := toks.all wfTok

/-- The indexed scalar tokens an array field explodes into: one per
element, then zero-valued padding up to the expected width. -/
def explodeVals (nm : Str) (vals : List Str) (width : Nat) : List Tok :=
  (vals.enum.map (fun iv => Tok.scalar (nm ++ natDigits iv.1 ++ '=' :: iv.2))) ++
  (if vals.length < width then
    (List.range' vals.length (width - vals.length)).map
      (fun i => Tok.scalar (nm ++ natDigits i ++ ['=', '0']))
  else [])

/-- Token-level explosion: scalars pass through, arrays explode. -/
def explodeTokens (array_lengths : Str → Nat) : Tok → List Tok
  | Tok.scalar t => [Tok.scalar t]
  | Tok.arr nm es => explodeVals nm es (array_lengths nm)

/-- Line-level explosion. -/
def explodeLine (array_lengths : Str → Nat) : List Tok → List Tok
  | [] => []
  | t :: ts => explodeTokens array_lengths t ++ explodeLine array_lengths ts

/-- The array occurrences of a line, in order, as (name, element count). -/
def occLine : List Tok → List (Str × Nat)
  | [] => []
  | Tok.scalar _ :: ts => occLine ts
  | Tok.arr nm es :: ts => (nm, es.length) :: occLine ts

/-- Number of array tokens of a line. -/
def arrayCount : List Tok → Nat
  | [] => 0
  | Tok.scalar _ :: ts => arrayCount ts
  | Tok.arr _ _ :: ts => arrayCount ts + 1

/-- Scalar-token test. -/
def isScalarTok : Tok → Bool
  | Tok.scalar _ => true
  | Tok.arr _ _ => false

/-- The file line of a token sequence: its text plus the trailing newline. -/
def fileLine (toks : List Tok) : Str := renderToks toks ++ ['\n']

/-- Literal prefix test (spec side, for the filter contract). -/
def prefixEq : Str → Str → Bool
  | [], _ => true
  | _ :: _, [] => false
  | a :: as, b :: bs => (a == b) && prefixEq as bs

/-- Modelled from the spec: the Line Filter contract of section 4.1, an
unanchored case-sensitive literal substring containment test.  This is the
spec-side definition, compared with the code's `lineSelected`. -/
def containsSub (needle : Str) : Str → Bool
  | [] => needle.isEmpty
  | c :: rest => prefixEq needle (c :: rest) || containsSub needle rest

/-- Element counts recorded for one name in an occurrence list. -/
def countsIn (occs : List (Str × Nat)) (nm : Str) : List Nat :=
  match occs with
  | [] => []
  | (n, k) :: rest => if n = nm then k :: countsIn rest nm else countsIn rest nm

/-- All element counts of the array field `nm` over the selected lines of a
dataset. -/
def occCountsFor (uw : Str) (ds : List (List Tok)) (nm : Str) : List Nat :=
  match ds with
  | [] => []
  | l :: rest =>
    if lineSelected uw (fileLine l) then
      countsIn (occLine l) nm ++ occCountsFor uw rest nm
    else occCountsFor uw rest nm

/-- Maximum of a list of naturals (0 when empty). -/
def listMax (l : List Nat) : Nat := l.foldl max 0

/-- Merge an optional running maximum with a list of further counts. -/
def combOpt (o : Option Nat) (cs : List Nat) : Option Nat :=
  if cs = [] then o else some (max (o.getD 0) (listMax cs))

/-- Concrete frame for the time-shift example. -/
def c8df : DataFrame :=
  ⟨["temp".toList], [10, 21 / 2, 11], [["a".toList], ["b".toList], ["c".toList]]⟩

/-- Concrete token line for the explode example (Example 2 of the spec). -/
def c1toks : List Tok := [Tok.arr ("load".toList) [['1'], ['2']]]

/-- Concrete width mapping for the explode example. -/
def c1len : Str → Nat := fun nm => if nm = "load".toList then 4 else 0

/-- Concrete token line for the termination witness. -/
def c10toks : List Tok :=
  [Tok.scalar ("id=0".toList), Tok.arr ("load".toList) [['3'], ['4']],
   Tok.arr ("cur".toList) [['7']]]

/-- Concrete width mapping for the termination witness. -/
def c10len : Str → Nat := fun nm => if nm = "cur".toList then 3 else 0

/-- Concrete marker for the prescanner witness. -/
def c2uw : Str := "ev:".toList

/-- Concrete dataset for the prescanner witness: two selected lines with
the array field load (2 and 3 elements) and one unselected line with 4
elements. -/
def c2ds : List (List Tok) :=
  [[Tok.scalar ("1.0:".toList), Tok.scalar ("ev:".toList),
    Tok.arr ("load".toList) [['1'], ['2']]],
   [Tok.scalar ("1.5:".toList), Tok.scalar ("ev:".toList),
    Tok.arr ("load".toList) [['1'], ['2'], ['3']],
    Tok.arr ("x".toList) [['7']]],
   [Tok.scalar ("2.0:".toList), Tok.scalar ("no:".toList),
    Tok.arr ("load".toList) [['9'], ['9'], ['9'], ['9']]]]

/-- Concrete dataset for the padded-width witness. -/
def c3ds : List (List Tok) :=
  [[Tok.scalar ("1.0:".toList), Tok.scalar ("ev:".toList),
    Tok.arr ("load".toList) [['1'], ['2']]],
   [Tok.scalar ("1.5:".toList), Tok.scalar ("ev:".toList),
    Tok.arr ("load".toList) [['4'], ['5'], ['6']]]]

/-- Concrete line of interest inside the padded-width witness dataset. -/
def c3line : List Tok :=
  [Tok.scalar ("1.0:".toList), Tok.scalar ("ev:".toList),
   Tok.arr ("load".toList) [['1'], ['2']]]

/-! ### List and character infrastructure lemmas -/

lemma alnumU_ne {c : Char} (h : alnumU c = true) :
    c ≠ ' ' ∧ c ≠ '=' ∧ c ≠ lbrace ∧ c ≠ rbrace := by
  refine ⟨?_, ?_, ?_, ?_⟩ <;> (rintro rfl; revert h; decide)

lemma plainChar_ne {c : Char} (h : plainChar c = true) :
    c ≠ ' ' ∧ c ≠ lbrace ∧ c ≠ rbrace := by
  simp only [plainChar, Bool.and_eq_true, decide_eq_true_eq] at h
  exact ⟨h.1.1, h.1.2, h.2⟩

lemma takeWhile_append_all {p : Char → Bool} :
    ∀ (l₁ l₂ : Str), (∀ x ∈ l₁, p x = true) →
      (l₁ ++ l₂).takeWhile p = l₁ ++ l₂.takeWhile p := by
  intro l₁
  induction l₁ with
  | nil => intro l₂ _; rfl
  | cons c cs ih =>
    intro l₂ h
    have hc : p c = true := h c (by simp)
    simp only [List.cons_append, List.takeWhile_cons, hc, if_true]
    rw [ih l₂ (fun x hx => h x (by simp [hx]))]

lemma takeWhile_append_stop {p : Char → Bool} :
    ∀ (l₁ l₂ : Str), (∃ x ∈ l₁, p x = false) →
      (l₁ ++ l₂).takeWhile p = l₁.takeWhile p := by
  intro l₁
  induction l₁ with
  | nil => rintro l₂ ⟨x, hx, -⟩; cases hx
  | cons c cs ih =>
    intro l₂ h
    by_cases hc : p c = true
    · simp only [List.cons_append, List.takeWhile_cons, hc, if_true]
      obtain ⟨x, hx, hpx⟩ := h
      rcases List.mem_cons.mp hx with rfl | hx2
      · rw [hc] at hpx; cases hpx
      · rw [ih l₂ ⟨x, hx2, hpx⟩]
    · have hc2 : p c = false := by revert hc; cases p c <;> simp
      simp only [List.cons_append, List.takeWhile_cons, hc2]
      simp

lemma takeWhile_eq_self {p : Char → Bool} :
    ∀ (l : Str), (∀ x ∈ l, p x = true) → l.takeWhile p = l := by
  intro l
  induction l with
  | nil => intro _; rfl
  | cons c cs ih =>
    intro h
    simp only [List.takeWhile_cons, h c (by simp), if_true]
    rw [ih (fun x hx => h x (by simp [hx]))]

lemma mem_of_mem_takeWhile {p : Char → Bool} {l : Str} {x : Char}
    (h : x ∈ l.takeWhile p) : x ∈ l := by
  rw [← List.takeWhile_append_dropWhile p l]
  exact List.mem_append_left _ h

lemma takeWhile_cons_pos {p : Char → Bool} {c : Char} (l : Str) (h : p c = true) :
    (c :: l).takeWhile p = c :: l.takeWhile p := by
  simp [List.takeWhile_cons, h]

lemma takeWhile_cons_neg {p : Char → Bool} {c : Char} (l : Str) (h : p c = false) :
    (c :: l).takeWhile p = [] := by
  simp [List.takeWhile_cons, h]

lemma length_takeWhile_le {p : Char → Bool} (l : Str) :
    (l.takeWhile p).length ≤ l.length := by
  have h := List.takeWhile_append_dropWhile p l
  calc (l.takeWhile p).length
      ≤ (l.takeWhile p).length + (l.dropWhile p).length := by omega
    _ = l.length := by rw [← List.length_append, h]

lemma dropWhile_cons_pos {p : Char → Bool} {c : Char} (l : Str) (h : p c = true) :
    (c :: l).dropWhile p = l.dropWhile p := by
  simp [List.dropWhile_cons, h]

lemma dropWhile_cons_neg {p : Char → Bool} {c : Char} (l : Str) (h : p c = false) :
    (c :: l).dropWhile p = c :: l := by
  simp [List.dropWhile_cons, h]

lemma dropWhile_append_all {p : Char → Bool} :
    ∀ (l₁ l₂ : Str), (∀ x ∈ l₁, p x = true) →
      (l₁ ++ l₂).dropWhile p = l₂.dropWhile p := by
  intro l₁
  induction l₁ with
  | nil => intro l₂ _; rfl
  | cons c cs ih =>
    intro l₂ h
    rw [List.cons_append, dropWhile_cons_pos _ (h c (by simp))]
    exact ih l₂ (fun x hx => h x (by simp [hx]))

lemma getElem?_name_end (nm : Str) (a : Char) (X : Str) :
    (nm ++ a :: X)[nm.length]? = some a := by
  rw [List.getElem?_append_right (le_refl _)]
  simp

lemma getElem?_name_end2 (nm : Str) (a b : Char) (X : Str) :
    (nm ++ a :: b :: X)[nm.length + 1]? = some b := by
  rw [List.getElem?_append_right (by omega)]
  have h : nm.length + 1 - nm.length = 1 := by omega
  rw [h]
  simp

lemma getElem?_shift (nm : Str) (a b : Char) (X : Str) (i : Nat) :
    (nm ++ a :: b :: X)[nm.length + 2 + i]? = X[i]? := by
  rw [List.getElem?_append_right (by omega)]
  have h : nm.length + 2 + i - nm.length = i + 1 + 1 := by omega
  rw [h]
  simp

lemma drop_name2 (nm : Str) (a b : Char) (X : Str) :
    (nm ++ a :: b :: X).drop (nm.length + 2) = X := by
  rw [List.drop_append 2]
  rfl

lemma token_restructure (nm J tail : Str) :
    nm ++ '=' :: lbrace :: (J ++ rbrace :: tail)
      = (nm ++ '=' :: lbrace :: (J ++ [rbrace])) ++ tail := by
  simp [List.append_assoc]

lemma token_length (nm J : Str) :
    (nm ++ '=' :: lbrace :: (J ++ [rbrace])).length = nm.length + J.length + 3 := by
  simp only [List.length_append, List.length_cons, List.length_append,
    List.length_cons, List.length_nil]
  omega

/-! ### The explode regex: match and search lemmas -/

lemma arrTailLen_eq (J tail : Str) (hne : J ≠ []) (hJ : ∀ c ∈ J, c ≠ rbrace) :
    arrTailLen (J ++ rbrace :: tail) = some (J.length + 1) := by
  have ht : (J ++ rbrace :: tail).takeWhile (fun c => decide (c ≠ rbrace)) = J := by
    rw [takeWhile_append_all _ _ (fun x hx => by simp [hJ x hx])]
    simp [List.takeWhile_cons]
  simp only [arrTailLen, ht]
  rw [if_neg (by simp [List.isEmpty_iff, hne]), if_pos (getElem?_name_end J rbrace tail)]

lemma tryJs_succ (t : Str) (p : Nat) :
    tryJs t (p + 1) =
      if t[p + 1]? = some '=' ∧ t[p + 2]? = some lbrace then
        match arrTailLen (t.drop (p + 3)) with
        | some tl => some (p + 3 + tl)
        | none => tryJs t p
      else tryJs t p := rfl

lemma tryJs_down (t : Str) (base : Nat) :
    ∀ d, (∀ p, base < p → p ≤ base + d → t[p + 1]? ≠ some lbrace) →
      tryJs t (base + d) = tryJs t base := by
  intro d
  induction d with
  | zero => intro _; rfl
  | succ d ih =>
    intro h
    have h1 : ¬ (t[base + d + 1]? = some '=' ∧ t[base + d + 2]? = some lbrace) := by
      rintro ⟨-, h2⟩
      refine h (base + d + 1) (by omega) (by omega) ?_
      have he : base + d + 1 + 1 = base + d + 2 := by omega
      rw [he]
      exact h2
    calc tryJs t (base + (d + 1)) = tryJs t (base + d) := by
          rw [show base + (d + 1) = (base + d) + 1 from by omega, tryJs_succ, if_neg h1]
      _ = tryJs t base := ih (fun p a b => h p a (by omega))

lemma matchArrAt_token (nm J tail : Str)
    (hnm : nm ≠ []) (hnmA : ∀ c ∈ nm, alnumU c = true)
    (hJne : J ≠ []) (hJ : ∀ c ∈ J, c ≠ lbrace ∧ c ≠ rbrace)
    (htail : tail.head? = some ' ' ∨ ∀ c ∈ tail, c ≠ lbrace) :
    matchArrAt (nm ++ '=' :: lbrace :: (J ++ rbrace :: tail))
      = some (nm.length + J.length + 3) := by
  have hnsp : ∀ x ∈ nm, (fun c => decide (c ≠ ' ')) x = true :=
    fun x hx => by simp [(alnumU_ne (hnmA x hx)).1]
  have hr : (nm ++ '=' :: lbrace :: (J ++ rbrace :: tail)).takeWhile
        (fun c => decide (c ≠ ' '))
      = nm ++ '=' :: lbrace ::
          ((J ++ rbrace :: tail).takeWhile (fun c => decide (c ≠ ' '))) := by
    rw [takeWhile_append_all _ _ hnsp, takeWhile_cons_pos _ (by decide),
      takeWhile_cons_pos _ (by decide)]
  have key : ∀ p, nm.length < p →
      p ≤ nm.length +
        (((J ++ rbrace :: tail).takeWhile (fun c => decide (c ≠ ' '))).length + 1) →
      (nm ++ '=' :: lbrace :: (J ++ rbrace :: tail))[p + 1]? ≠ some lbrace := by
    intro p hp1 hp2 hcontra
    have hidx : p + 1 = nm.length + 2 + (p - nm.length - 1) := by omega
    rw [hidx, getElem?_shift] at hcontra
    rcases htail with hsp | hfree
    · have hwlen :
          ((J ++ rbrace :: tail).takeWhile (fun c => decide (c ≠ ' '))).length
            ≤ J.length + 1 := by
        by_cases hJs : ∃ x ∈ J, (fun c => decide (c ≠ ' ')) x = false
        · rw [takeWhile_append_stop _ _ hJs]
          calc (J.takeWhile _).length ≤ J.length := length_takeWhile_le J
            _ ≤ J.length + 1 := by omega
        · have hJall : ∀ x ∈ J, (fun c => decide (c ≠ ' ')) x = true := by
            intro x hx
            cases hp : (fun c => decide (c ≠ ' ')) x with
            | false => exact absurd ⟨x, hx, hp⟩ hJs
            | true => rfl
          obtain ⟨tl2, rfl⟩ : ∃ tl2, tail = ' ' :: tl2 := by
            cases tail with
            | nil => cases hsp
            | cons a b =>
              have : a = ' ' := by simpa using hsp
              exact ⟨b, by rw [this]⟩
          rw [takeWhile_append_all _ _ hJall, takeWhile_cons_pos _ (by decide),
            takeWhile_cons_neg _ (by decide)]
          simp
      have hi : p - nm.length - 1 ≤ J.length + 1 := by omega
      rcases Nat.lt_or_ge (p - nm.length - 1) J.length with hlt | hge
      · rw [List.getElem?_append_left hlt] at hcontra
        exact (hJ lbrace (List.getElem?_mem hcontra)).1 rfl
      · rw [List.getElem?_append_right hge] at hcontra
        rcases Nat.lt_or_ge (p - nm.length - 1) (J.length + 1) with hc1 | hc2
        · have h0 : p - nm.length - 1 - J.length = 0 := by omega
          rw [h0] at hcontra
          simp only [List.getElem?_cons_zero, Option.some.injEq] at hcontra
          exact absurd hcontra (by decide)
        · have h1 : p - nm.length - 1 - J.length = 1 := by omega
          rw [h1] at hcontra
          obtain ⟨tl2, rfl⟩ : ∃ tl2, tail = ' ' :: tl2 := by
            cases tail with
            | nil => cases hsp
            | cons a b =>
              have : a = ' ' := by simpa using hsp
              exact ⟨b, by rw [this]⟩
          simp only [List.getElem?_cons_succ, List.getElem?_cons_zero,
            Option.some.injEq] at hcontra
          exact absurd hcontra (by decide)
    · have hm := List.getElem?_mem hcontra
      rcases List.mem_append.mp hm with hJm | hrt
      · exact (hJ _ hJm).1 rfl
      · rcases List.mem_cons.mp hrt with he | ht2
        · exact absurd he.symm (by decide)
        · exact hfree _ ht2 rfl
  have hfin : tryJs (nm ++ '=' :: lbrace :: (J ++ rbrace :: tail)) nm.length
      = some (nm.length + J.length + 3) := by
    obtain ⟨k, hk⟩ : ∃ k, nm.length = k + 1 := by
      cases nm with
      | nil => exact absurd rfl hnm
      | cons a b => exact ⟨b.length, by simp⟩
    have e1 : (nm ++ '=' :: lbrace :: (J ++ rbrace :: tail))[k + 1]? = some '=' := by
      rw [← hk]; exact getElem?_name_end nm '=' _
    have e2 : (nm ++ '=' :: lbrace :: (J ++ rbrace :: tail))[k + 2]? = some lbrace := by
      rw [show k + 2 = nm.length + 1 from by omega]
      exact getElem?_name_end2 nm '=' lbrace _
    have e3 : (nm ++ '=' :: lbrace :: (J ++ rbrace :: tail)).drop (k + 3)
        = J ++ rbrace :: tail := by
      rw [show k + 3 = nm.length + 2 from by omega]
      exact drop_name2 nm '=' lbrace _
    rw [hk, tryJs_succ, if_pos ⟨e1, e2⟩, e3,
      arrTailLen_eq J tail hJne (fun c hc => (hJ c hc).2)]
    show some (k + 3 + (J.length + 1)) = some (k + 1 + J.length + 3)
    congr 1
    omega
  simp only [matchArrAt, hr]
  have hne2 : (nm ++ '=' :: lbrace ::
      ((J ++ rbrace :: tail).takeWhile (fun c => decide (c ≠ ' ')))).isEmpty = false := by
    cases nm <;> simp
  rw [hne2]
  simp only [Bool.false_eq_true, if_false]
  have hlen : (nm ++ '=' :: lbrace ::
        ((J ++ rbrace :: tail).takeWhile (fun c => decide (c ≠ ' ')))).length - 1
      = nm.length +
        (((J ++ rbrace :: tail).takeWhile (fun c => decide (c ≠ ' '))).length + 1) := by
    simp only [List.length_append, List.length_cons]
    omega
  rw [hlen, tryJs_down _ nm.length _ key]
  exact hfin

lemma matchArrAt_none (t : Str)
    (h : ∀ c ∈ t.takeWhile (fun c => decide (c ≠ ' ')), c ≠ lbrace) :
    matchArrAt t = none := by
  by_cases he : (t.takeWhile (fun c => decide (c ≠ ' '))).isEmpty = true
  · simp only [matchArrAt]
    rw [if_pos he]
  · have hlen1 : 1 ≤ (t.takeWhile (fun c => decide (c ≠ ' '))).length := by
      cases hv : t.takeWhile (fun c => decide (c ≠ ' ')) with
      | nil => rw [hv] at he; simp at he
      | cons a b => simp
    have key : ∀ p, p ≤ (t.takeWhile (fun c => decide (c ≠ ' '))).length - 1 →
        tryJs t p = none := by
      intro p
      induction p with
      | zero => intro _; rfl
      | succ p ih =>
        intro hp
        have hfail : ¬ (t[p + 1]? = some '=' ∧ t[p + 2]? = some lbrace) := by
          rintro ⟨-, h2⟩
          have hsplit := List.takeWhile_append_dropWhile
            (fun c => decide (c ≠ ' ')) t
          rcases Nat.lt_or_ge (p + 2)
              (t.takeWhile (fun c => decide (c ≠ ' '))).length with hlt | hge
          · rw [← hsplit, List.getElem?_append_left hlt] at h2
            exact h lbrace (List.getElem?_mem h2) rfl
          · have heq : p + 2 = (t.takeWhile (fun c => decide (c ≠ ' '))).length := by
              omega
            rw [← hsplit, List.getElem?_append_right hge] at h2
            rw [heq, Nat.sub_self] at h2
            have hhd := List.head?_dropWhile_not (fun c => decide (c ≠ ' ')) t
            have h2' : (t.dropWhile (fun c => decide (c ≠ ' '))).head? = some lbrace := by
              cases hd : t.dropWhile (fun c => decide (c ≠ ' ')) with
              | nil => rw [hd] at h2; cases h2
              | cons a b =>
                rw [hd] at h2
                simp only [List.getElem?_cons_zero] at h2
                exact h2
            rw [h2'] at hhd
            simp only [decide_eq_false_iff_not, ne_eq, not_not] at hhd
            exact absurd hhd (by decide)
        rw [tryJs_succ, if_neg hfail]
        exact ih (by omega)
    simp only [matchArrAt]
    rw [if_neg he]
    exact key _ (by omega)

lemma searchArrAux_none : ∀ (pre s : Str), (∀ c ∈ s, c ≠ lbrace) →
    searchArrAux pre s = none := by
  intro pre s
  induction s generalizing pre with
  | nil => intro _; rfl
  | cons c cs ih =>
    intro h
    have hm : matchArrAt (c :: cs) = none :=
      matchArrAt_none _ (fun x hx => h x (mem_of_mem_takeWhile hx))
    simp only [searchArrAux, hm]
    exact ih _ (fun x hx => h x (by simp [hx]))

lemma searchArrAux_skip :
    ∀ (s₁ : Str), (∀ c ∈ s₁, c ≠ lbrace) → (s₁ = [] ∨ ∃ s₀, s₁ = s₀ ++ [' ']) →
      ∀ (pre s₂ : Str), searchArrAux pre (s₁ ++ s₂) = searchArrAux (s₁.reverse ++ pre) s₂ := by
  intro s₁
  induction s₁ with
  | nil => intro _ _ pre s₂; rfl
  | cons c cs ih =>
    intro h1 h2 pre s₂
    obtain ⟨s₀, hs₀⟩ := h2.resolve_left (by simp)
    have hsp : ' ' ∈ c :: cs := by rw [hs₀]; simp
    have hm : matchArrAt (c :: cs ++ s₂) = none := by
      apply matchArrAt_none
      intro x hx
      rw [show (c :: cs ++ s₂) = (c :: cs) ++ s₂ from rfl,
        takeWhile_append_stop _ _ ⟨' ', hsp, by simp⟩] at hx
      exact h1 x (mem_of_mem_takeWhile hx)
    rw [show (c :: cs) ++ s₂ = c :: (cs ++ s₂) from rfl]
    simp only [searchArrAux]
    rw [show c :: (cs ++ s₂) = (c :: cs) ++ s₂ from rfl, hm]
    have hrec := ih (fun x hx => h1 x (by simp [hx]))
      (by
        cases s₀ with
        | nil =>
          left
          simpa using congrArg (List.drop 1) hs₀
        | cons d s₀' =>
          right
          refine ⟨s₀', ?_⟩
          have := congrArg (List.drop 1) hs₀
          simpa using this)
      (c :: pre) s₂
    rw [hrec]
    have heq : (c :: cs).reverse ++ pre = cs.reverse ++ (c :: pre) := by simp
    rw [heq]

/-! ### Render, join and split lemmas -/

lemma sepJoin_cons (t : Str) (ts : List Str) (h : ts ≠ []) :
    sepJoin (t :: ts) = t ++ ' ' :: sepJoin ts := by
  cases ts with
  | nil => exact absurd rfl h
  | cons u ts' => rfl

lemma sepJoin_append (as bs : List Str) (ha : as ≠ []) (hb : bs ≠ []) :
    sepJoin (as ++ bs) = sepJoin as ++ ' ' :: sepJoin bs := by
  induction as with
  | nil => exact absurd rfl ha
  | cons a as' ih =>
    cases as' with
    | nil =>
      rw [List.cons_append, List.nil_append, sepJoin_cons a bs hb]
      rfl
    | cons a2 as2 =>
      rw [List.cons_append, sepJoin_cons a ((a2 :: as2) ++ bs) (by simp),
        ih (by simp), sepJoin_cons a (a2 :: as2) (by simp)]
      simp [List.append_assoc]

lemma mem_sepJoin {c : Char} : ∀ (es : List Str), c ∈ sepJoin es →
    c = ' ' ∨ ∃ e ∈ es, c ∈ e := by
  intro es
  induction es with
  | nil => intro h; cases h
  | cons e es' ih =>
    cases es' with
    | nil => intro h; right; exact ⟨e, by simp, h⟩
    | cons e2 es2 =>
      intro h
      rw [sepJoin_cons e (e2 :: es2) (by simp)] at h
      rcases List.mem_append.mp h with h1 | h2
      · right; exact ⟨e, by simp, h1⟩
      · rcases List.mem_cons.mp h2 with rfl | h3
        · left; rfl
        · rcases ih h3 with h4 | ⟨x, hx, hcx⟩
          · left; exact h4
          · right; exact ⟨x, by simp [hx], hcx⟩

lemma sepJoin_ne_nil : ∀ (es : List Str), es ≠ [] → (∀ e ∈ es, e ≠ []) →
    sepJoin es ≠ [] := by
  intro es
  cases es with
  | nil => intro h _; exact absurd rfl h
  | cons e es' =>
    intro _ h2
    cases es' with
    | nil => exact h2 e (by simp)
    | cons e2 es2 =>
      rw [sepJoin_cons e (e2 :: es2) (by simp)]
      simp

lemma splitSepAux_chunk (sep : Char) : ∀ (e rest acc : Str), (∀ c ∈ e, c ≠ sep) →
    splitSepAux sep (e ++ rest) acc = splitSepAux sep rest (e.reverse ++ acc) := by
  intro e
  induction e with
  | nil => intro rest acc _; simp
  | cons c e' ih =>
    intro rest acc h
    rw [List.cons_append]
    show splitSepAux sep (c :: (e' ++ rest)) acc = _
    simp only [splitSepAux]
    rw [if_neg (h c (by simp))]
    rw [ih rest (c :: acc) (fun x hx => h x (by simp [hx]))]
    congr 1
    simp

lemma splitSep_sepJoin : ∀ (es : List Str), es ≠ [] →
    (∀ e ∈ es, ∀ c ∈ e, c ≠ ' ') → splitOnSpace (sepJoin es) = es := by
  intro es
  induction es with
  | nil => intro h _; exact absurd rfl h
  | cons e es' ih =>
    intro _ h2
    cases es' with
    | nil =>
      show splitOnSpace e = [e]
      unfold splitOnSpace splitSep
      rw [show e = e ++ [] from by simp,
        splitSepAux_chunk ' ' e [] [] (h2 e (by simp))]
      simp [splitSepAux]
    | cons e2 es2 =>
      rw [sepJoin_cons e (e2 :: es2) (by simp)]
      unfold splitOnSpace splitSep
      rw [splitSepAux_chunk ' ' e (' ' :: sepJoin (e2 :: es2)) []
        (h2 e (by simp))]
      show (if ' ' = ' ' then _ :: splitSepAux ' ' (sepJoin (e2 :: es2)) []
        else _) = _
      rw [if_pos rfl]
      have hr := ih (by simp) (fun x hx => h2 x (by simp [hx]))
      unfold splitOnSpace splitSep at hr
      rw [hr]
      simp

lemma digitChar_isDigit : ∀ d, (digitChar d).isDigit = true := by
  intro d
  unfold digitChar
  split <;> decide

lemma natDigitsF_chars : ∀ (f n : Nat) (acc : Str),
    (∀ c ∈ acc, c.isDigit = true) → ∀ c ∈ natDigitsF f n acc, c.isDigit = true := by
  intro f
  induction f with
  | zero => intro n acc h c hc; exact h c hc
  | succ f ih =>
    intro n acc h c hc
    simp only [natDigitsF] at hc
    by_cases hn : n < 10
    · rw [if_pos hn] at hc
      rcases List.mem_cons.mp hc with rfl | h2
      · exact digitChar_isDigit n
      · exact h _ h2
    · rw [if_neg hn] at hc
      refine ih _ _ (fun x hx => ?_) c hc
      rcases List.mem_cons.mp hx with rfl | h2
      · exact digitChar_isDigit _
      · exact h _ h2

lemma natDigits_chars (n : Nat) : ∀ c ∈ natDigits n, c.isDigit = true :=
  natDigitsF_chars (n + 1) n [] (by intro c hc; cases hc)

lemma isDigit_facts {c : Char} (h : c.isDigit = true) :
    c ≠ ' ' ∧ c ≠ lbrace ∧ c ≠ rbrace ∧ alnumU c = true := by
  refine ⟨?_, ?_, ?_, ?_⟩
  · rintro rfl; revert h; decide
  · rintro rfl; revert h; decide
  · rintro rfl; revert h; decide
  · simp [alnumU, Char.isAlphanum, h]

lemma alnumU_plain {c : Char} (h : alnumU c = true) : plainChar c = true := by
  obtain ⟨h1, -, h3, h4⟩ := alnumU_ne h
  simp [plainChar, h1, h3, h4]

lemma sepJoinTrail_dropLast : ∀ (ts : List Str), ts ≠ [] →
    (sepJoinTrail ts).dropLast = sepJoin ts := by
  intro ts
  induction ts with
  | nil => intro h; exact absurd rfl h
  | cons t ts' ih =>
    intro _
    cases ts' with
    | nil =>
      show (t ++ [' ']).dropLast = t
      exact List.dropLast_concat
    | cons u ts2 =>
      show (t ++ ' ' :: sepJoinTrail (u :: ts2)).dropLast = _
      have hX : sepJoinTrail (u :: ts2) ≠ [] := by
        show u ++ ' ' :: sepJoinTrail ts2 ≠ []
        simp
      rw [List.dropLast_append_of_ne_nil _ (by simp),
        show (' ' :: sepJoinTrail (u :: ts2)).dropLast
          = ' ' :: (sepJoinTrail (u :: ts2)).dropLast from
            List.dropLast_cons_of_ne_nil hX,
        ih (by simp), sepJoin_cons t (u :: ts2) (by simp)]

lemma searchArrAux_token (pre : Str) (nm J tail : Str)
    (hnm : nm ≠ []) (hnmA : ∀ c ∈ nm, alnumU c = true)
    (hJne : J ≠ []) (hJ : ∀ c ∈ J, c ≠ lbrace ∧ c ≠ rbrace)
    (htail : tail.head? = some ' ' ∨ ∀ c ∈ tail, c ≠ lbrace) :
    searchArrAux pre (nm ++ '=' :: lbrace :: (J ++ rbrace :: tail))
      = some (pre.reverse, nm ++ '=' :: lbrace :: (J ++ [rbrace]), tail) := by
  have htake : (nm ++ '=' :: lbrace :: (J ++ rbrace :: tail)).take
      (nm.length + J.length + 3) = nm ++ '=' :: lbrace :: (J ++ [rbrace]) := by
    rw [token_restructure, ← token_length nm J]
    exact List.take_left _ _
  have hdrop : (nm ++ '=' :: lbrace :: (J ++ rbrace :: tail)).drop
      (nm.length + J.length + 3) = tail := by
    rw [token_restructure, ← token_length nm J]
    exact List.drop_left _ _
  obtain ⟨c0, nm', rfl⟩ : ∃ c0 nm', nm = c0 :: nm' := by
    cases nm with
    | nil => exact absurd rfl hnm
    | cons a b => exact ⟨a, b, rfl⟩
  have hm := matchArrAt_token (c0 :: nm') J tail hnm hnmA hJne hJ htail
  show searchArrAux pre (c0 :: (nm' ++ '=' :: lbrace :: (J ++ rbrace :: tail))) = _
  simp only [searchArrAux]
  rw [show c0 :: (nm' ++ '=' :: lbrace :: (J ++ rbrace :: tail))
      = (c0 :: nm') ++ '=' :: lbrace :: (J ++ rbrace :: tail) from rfl, hm]
  show some (pre.reverse,
      ((c0 :: nm') ++ '=' :: lbrace :: (J ++ rbrace :: tail)).take
        ((c0 :: nm').length + J.length + 3),
      ((c0 :: nm') ++ '=' :: lbrace :: (J ++ rbrace :: tail)).drop
        ((c0 :: nm').length + J.length + 3)) = _
  rw [htake, hdrop]

/-! ### One explode iteration on a rendered line -/

lemma renderToks_mid (pre rest mid : List Tok) (hm : mid ≠ []) :
    renderToks (pre ++ mid ++ rest)
      = (if pre.isEmpty then [] else renderToks pre ++ [' ']) ++ renderToks mid ++
        (if rest.isEmpty then [] else ' ' :: renderToks rest) := by
  have hmm : mid.map renderTok ≠ [] := by
    cases mid with
    | nil => exact absurd rfl hm
    | cons a b => simp
  by_cases hp : pre = []
  · subst hp
    by_cases hr : rest = []
    · subst hr; simp [renderToks]
    · have hrr : rest.map renderTok ≠ [] := by
        cases rest with
        | nil => exact absurd rfl hr
        | cons a b => simp
      simp only [List.isEmpty_iff, hr, if_neg, List.nil_append, if_neg hr]
      unfold renderToks
      rw [List.map_append, sepJoin_append _ _ hmm hrr]
      simp [List.isEmpty_iff, hr]
  · have hpp : pre.map renderTok ≠ [] := by
      cases pre with
      | nil => exact absurd rfl hp
      | cons a b => simp
    by_cases hr : rest = []
    · subst hr
      unfold renderToks
      rw [List.append_nil, List.map_append, sepJoin_append _ _ hpp hmm]
      simp [List.isEmpty_iff, hp, List.append_assoc]
    · have hrr : rest.map renderTok ≠ [] := by
        cases rest with
        | nil => exact absurd rfl hr
        | cons a b => simp
      unfold renderToks
      rw [List.map_append, List.map_append, List.append_assoc,
        sepJoin_append (pre.map renderTok) _ hpp
          (by intro hcon; exact hmm (List.append_eq_nil.mp hcon).1),
        sepJoin_append _ _ hmm hrr]
      simp [List.isEmpty_iff, hp, hr, List.append_assoc]

lemma renderToks_scalar_no_lbrace (pre : List Tok)
    (hsc : ∀ t ∈ pre, ∃ s, t = Tok.scalar s)
    (hwf : ∀ t ∈ pre, wfTok t = true) :
    ∀ c ∈ renderToks pre, c ≠ lbrace := by
  intro c hc
  rcases mem_sepJoin _ hc with rfl | ⟨e, he, hce⟩
  · decide
  · rcases List.mem_map.mp he with ⟨t, ht, rfl⟩
    obtain ⟨s, rfl⟩ := hsc t ht
    have hw := hwf _ ht
    simp only [wfTok, scalarOk, Bool.and_eq_true, List.all_eq_true] at hw
    exact (plainChar_ne (hw.2 c hce)).2.1

lemma explodeVals_length (nm : Str) (vals : List Str) (w : Nat) :
    (explodeVals nm vals w).length = max vals.length w := by
  unfold explodeVals
  by_cases hw : vals.length < w
  · rw [if_pos hw, List.length_append, List.length_map, List.enum_length,
      List.length_map, List.length_range']
    omega
  · rw [if_neg hw, List.length_append, List.length_map, List.enum_length,
      List.length_nil]
    omega

lemma explodeVals_ne_nil (nm : Str) (vals : List Str) (w : Nat)
    (h : vals ≠ []) : explodeVals nm vals w ≠ [] := by
  have h1 : 0 < vals.length := List.length_pos.mpr h
  have h2 : 0 < (explodeVals nm vals w).length := by
    rw [explodeVals_length]; omega
  exact List.length_pos.mp h2

lemma explodeVals_scalars (nm : Str) (vals : List Str) (w : Nat) :
    ∀ t ∈ explodeVals nm vals w, ∃ s, t = Tok.scalar s := by
  intro t ht
  unfold explodeVals at ht
  rcases List.mem_append.mp ht with h1 | h2
  · rcases List.mem_map.mp h1 with ⟨iv, -, rfl⟩
    exact ⟨_, rfl⟩
  · by_cases hw : vals.length < w
    · rw [if_pos hw] at h2
      rcases List.mem_map.mp h2 with ⟨i, -, rfl⟩
      exact ⟨_, rfl⟩
    · rw [if_neg hw] at h2
      cases h2

lemma explodeVals_wf (nm : Str) (vals : List Str) (w : Nat)
    (hnm : nameOk nm = true) (hvals : ∀ v ∈ vals, elemOk v = true) :
    ∀ t ∈ explodeVals nm vals w, wfTok t = true := by
  have hnmne : nm ≠ [] := by
    simp only [nameOk, Bool.and_eq_true, Bool.not_eq_true'] at hnm
    intro hcon
    rw [hcon] at hnm
    exact absurd hnm.1 (by decide)
  have hnmA : ∀ c ∈ nm, alnumU c = true := by
    simp only [nameOk, Bool.and_eq_true, List.all_eq_true] at hnm
    exact hnm.2
  have hplain : ∀ (i : Nat) (v : Str), (∀ c ∈ v, plainChar c = true) →
      wfTok (Tok.scalar (nm ++ natDigits i ++ '=' :: v)) = true := by
    intro i v hv
    show scalarOk _ = true
    unfold scalarOk
    rw [Bool.and_eq_true]
    constructor
    · obtain ⟨a0, nm0, rfl⟩ : ∃ a0 nm0, nm = a0 :: nm0 := by
        cases nm with
        | nil => exact absurd rfl hnmne
        | cons a b => exact ⟨a, b, rfl⟩
      simp
    · rw [List.all_eq_true]
      intro c hc
      rcases List.mem_append.mp hc with h1 | h2
      · rcases List.mem_append.mp h1 with ha | hb
        · exact alnumU_plain (hnmA c ha)
        · exact alnumU_plain (isDigit_facts (natDigits_chars i c hb)).2.2.2
      · rcases List.mem_cons.mp h2 with rfl | h3
        · decide
        · exact hv c h3
  intro t ht
  unfold explodeVals at ht
  rcases List.mem_append.mp ht with h1 | h2
  · rcases List.mem_map.mp h1 with ⟨iv, hiv, rfl⟩
    have hmem : iv.2 ∈ vals := by
      have h := List.enum_map_snd vals
      exact h ▸ List.mem_map_of_mem Prod.snd hiv
    have he := hvals _ hmem
    simp only [elemOk, Bool.and_eq_true, List.all_eq_true] at he
    exact hplain iv.1 iv.2 he.2
  · by_cases hw : vals.length < w
    · rw [if_pos hw] at h2
      rcases List.mem_map.mp h2 with ⟨i, -, rfl⟩
      exact hplain i ['0'] (by decide)
    · rw [if_neg hw] at h2
      cases h2

lemma nameOk_facts {nm : Str} (h : nameOk nm = true) :
    nm ≠ [] ∧ ∀ c ∈ nm, alnumU c = true := by
  simp only [nameOk, Bool.and_eq_true, List.all_eq_true, Bool.not_eq_true'] at h
  refine ⟨?_, h.2⟩
  intro hcon
  rw [hcon] at h
  exact absurd h.1 (by decide)

lemma elemOk_facts {e : Str} (h : elemOk e = true) :
    e ≠ [] ∧ ∀ c ∈ e, plainChar c = true := by
  simp only [elemOk, Bool.and_eq_true, List.all_eq_true, Bool.not_eq_true'] at h
  refine ⟨?_, h.2⟩
  intro hcon
  rw [hcon] at h
  exact absurd h.1 (by decide)

lemma wfLine_split (pre : List Tok) (t : Tok) (rest : List Tok)
    (h : wfLine (pre ++ t :: rest) = true) :
    (∀ x ∈ pre, wfTok x = true) ∧ wfTok t = true ∧
      ∀ x ∈ rest, wfTok x = true := by
  simp only [wfLine, List.all_append, List.all_cons, Bool.and_eq_true,
    List.all_eq_true] at h
  exact ⟨h.1, h.2.1, h.2.2⟩

lemma arrTok_facts {nm : Str} {es : List Str}
    (h : wfTok (Tok.arr nm es) = true) :
    nameOk nm = true ∧ es ≠ [] ∧ ∀ e ∈ es, elemOk e = true := by
  simp only [wfTok, Bool.and_eq_true, List.all_eq_true, Bool.not_eq_true'] at h
  refine ⟨h.1.1, ?_, h.2⟩
  intro hcon
  rw [hcon] at h
  exact absurd h.1.2 (by decide)

lemma sepJoin_facts (es : List Str) (hes : ∀ e ∈ es, elemOk e = true)
    (hne : es ≠ []) :
    sepJoin es ≠ [] ∧ ∀ c ∈ sepJoin es, c ≠ lbrace ∧ c ≠ rbrace := by
  constructor
  · exact sepJoin_ne_nil es hne (fun e he => (elemOk_facts (hes e he)).1)
  · intro c hc
    rcases mem_sepJoin es hc with rfl | ⟨e, he, hce⟩
    · exact ⟨by decide, by decide⟩
    · have hp := (elemOk_facts (hes e he)).2 c hce
      exact ⟨(plainChar_ne hp).2.1, (plainChar_ne hp).2.2⟩

lemma map_renderTok_explodeVals (nm : Str) (vals : List Str) (w : Nat) :
    (explodeVals nm vals w).map renderTok
      = vals.enum.map (fun iv => nm ++ natDigits iv.1 ++ '=' :: iv.2) ++
        (if vals.length < w then
          (List.range' vals.length (w - vals.length)).map
            (fun i => nm ++ natDigits i ++ ['=', '0'])
        else []) := by
  unfold explodeVals
  rw [List.map_append, List.map_map]
  congr 1
  split
  · rw [List.map_map]
    rfl
  · rfl

lemma renderToks_arr_shape (pre rest : List Tok) (nm : Str) (es : List Str) :
    renderToks (pre ++ Tok.arr nm es :: rest)
      = (if pre.isEmpty then [] else renderToks pre ++ [' ']) ++
        (nm ++ '=' :: lbrace :: (sepJoin es ++ rbrace ::
          (if rest.isEmpty then [] else ' ' :: renderToks rest))) := by
  have h1 : pre ++ Tok.arr nm es :: rest = pre ++ [Tok.arr nm es] ++ rest := by
    simp
  rw [h1, renderToks_mid pre rest [Tok.arr nm es] (by simp)]
  have h2 : renderToks [Tok.arr nm es]
      = nm ++ '=' :: lbrace :: (sepJoin es ++ [rbrace]) := rfl
  rw [h2, List.append_assoc]
  congr 1
  exact (token_restructure nm (sepJoin es) _).symm

lemma explodeStep_render (al : Str → Nat) (pre : List Tok) (nm : Str)
    (es : List Str) (rest : List Tok)
    (hsc : ∀ t ∈ pre, ∃ s, t = Tok.scalar s)
    (hwf : wfLine (pre ++ Tok.arr nm es :: rest) = true) :
    explodeStep al (renderToks (pre ++ Tok.arr nm es :: rest))
      = some (renderToks (pre ++ explodeVals nm es (al nm) ++ rest)) := by
  obtain ⟨hwfPre, hwfArr, hwfRest⟩ := wfLine_split pre _ rest hwf
  obtain ⟨hnmok, hesne, heselem⟩ := arrTok_facts hwfArr
  obtain ⟨hnmne, hnmA⟩ := nameOk_facts hnmok
  obtain ⟨hJne, hJbr⟩ := sepJoin_facts es heselem hesne
  have hshape := renderToks_arr_shape pre rest nm es
  have hs₁br : ∀ c ∈ (if pre.isEmpty then ([] : Str)
      else renderToks pre ++ [' ']), c ≠ lbrace := by
    by_cases hp : pre = []
    · intro c hc
      rw [if_pos (by simp [hp])] at hc
      cases hc
    · rw [if_neg (by simp [hp])]
      intro c hc
      rcases List.mem_append.mp hc with h1 | h2
      · exact renderToks_scalar_no_lbrace pre hsc hwfPre c h1
      · rcases List.mem_singleton.mp h2 with rfl
        decide
  have hs₁shape : (if pre.isEmpty then ([] : Str) else renderToks pre ++ [' ']) = []
      ∨ ∃ s₀, (if pre.isEmpty then ([] : Str) else renderToks pre ++ [' '])
          = s₀ ++ [' '] := by
    by_cases hp : pre = []
    · left; rw [if_pos (by simp [hp])]
    · right; exact ⟨renderToks pre, by rw [if_neg (by simp [hp])]⟩
  have htailc : (if rest.isEmpty then ([] : Str)
        else ' ' :: renderToks rest).head? = some ' '
      ∨ ∀ c ∈ (if rest.isEmpty then ([] : Str) else ' ' :: renderToks rest),
          c ≠ lbrace := by
    by_cases hr : rest = []
    · right
      intro c hc
      rw [if_pos (by simp [hr])] at hc
      cases hc
    · left
      rw [if_neg (by simp [hr])]
      rfl
  have hsearch : searchArrAux [] (renderToks (pre ++ Tok.arr nm es :: rest))
      = some ((if pre.isEmpty then ([] : Str) else renderToks pre ++ [' ']),
          nm ++ '=' :: lbrace :: (sepJoin es ++ [rbrace]),
          (if rest.isEmpty then ([] : Str) else ' ' :: renderToks rest)) := by
    rw [hshape, searchArrAux_skip _ hs₁br hs₁shape [] _,
      searchArrAux_token _ nm (sepJoin es) _ hnmne hnmA hJne hJbr htailc]
    rw [List.append_nil, List.reverse_reverse]
  have hbase : (nm ++ '=' :: lbrace :: (sepJoin es ++ [rbrace])).takeWhile
      (fun c => decide (c ≠ '=')) = nm := by
    rw [takeWhile_append_all _ _
        (fun x hx => by simp [(alnumU_ne (hnmA x hx)).2.1]),
      takeWhile_cons_neg _ (by decide), List.append_nil]
  have hvs : (((nm ++ '=' :: lbrace :: (sepJoin es ++ [rbrace])).dropWhile
      (fun c => decide (c ≠ lbrace))).drop 1).dropLast = sepJoin es := by
    rw [dropWhile_append_all _ _
        (fun x hx => by simp [(alnumU_ne (hnmA x hx)).2.2.1]),
      dropWhile_cons_pos _ (by decide), dropWhile_cons_neg _ (by decide)]
    show (sepJoin es ++ [rbrace]).dropLast = sepJoin es
    exact List.dropLast_concat
  have hsplit : splitOnSpace (sepJoin es) = es :=
    splitSep_sepJoin es hesne
      (fun e he c hc => (plainChar_ne ((elemOk_facts (heselem e he)).2 c hc)).1)
  have hevne : explodeVals nm es (al nm) ≠ [] := explodeVals_ne_nil _ _ _ hesne
  have hmapne : (explodeVals nm es (al nm)).map renderTok ≠ [] := by
    cases hev : explodeVals nm es (al nm) with
    | nil => exact absurd hev hevne
    | cons a b => simp
  simp only [explodeStep, hsearch]
  rw [hbase, hvs, hsplit]
  rw [show es.enum.map (fun iv => nm ++ natDigits iv.1 ++ '=' :: iv.2) ++
        (if es.length < al nm then
          (List.range' es.length (al nm - es.length)).map
            (fun i => nm ++ natDigits i ++ ['=', '0'])
        else [])
      = (explodeVals nm es (al nm)).map renderTok from
        (map_renderTok_explodeVals nm es (al nm)).symm]
  rw [sepJoinTrail_dropLast _ hmapne]
  rw [show sepJoin ((explodeVals nm es (al nm)).map renderTok)
      = renderToks (explodeVals nm es (al nm)) from rfl]
  rw [renderToks_mid pre rest (explodeVals nm es (al nm)) hevne]

/-! ### The full explode loop on a rendered line -/

lemma exists_first_arr (toks : List Tok)
    (h : ¬ ∀ t ∈ toks, ∃ s, t = Tok.scalar s) :
    ∃ pre nm es rest, toks = pre ++ Tok.arr nm es :: rest ∧
      ∀ t ∈ pre, ∃ s, t = Tok.scalar s := by
  induction toks with
  | nil => exact absurd (by intro t ht; cases ht) h
  | cons t ts ih =>
    cases t with
    | arr nm es => exact ⟨[], nm, es, ts, rfl, by intro t ht; cases ht⟩
    | scalar s =>
      have h2 : ¬ ∀ t ∈ ts, ∃ s, t = Tok.scalar s := by
        intro hc
        refine h ?_
        intro t ht
        rcases List.mem_cons.mp ht with rfl | h3
        · exact ⟨s, rfl⟩
        · exact hc t h3
      obtain ⟨pre, nm, es, rest, heq, hpre⟩ := ih h2
      refine ⟨Tok.scalar s :: pre, nm, es, rest, by rw [heq]; rfl, ?_⟩
      intro t ht
      rcases List.mem_cons.mp ht with rfl | h3
      · exact ⟨s, rfl⟩
      · exact hpre t h3

lemma explodeLine_append (al : Str → Nat) :
    ∀ (as bs : List Tok),
      explodeLine al (as ++ bs) = explodeLine al as ++ explodeLine al bs := by
  intro as bs
  induction as with
  | nil => rfl
  | cons t ts ih =>
    show explodeTokens al t ++ explodeLine al (ts ++ bs) = _
    rw [ih]
    simp [explodeLine, List.append_assoc]

lemma explodeLine_scalars (al : Str → Nat) (toks : List Tok)
    (h : ∀ t ∈ toks, ∃ s, t = Tok.scalar s) : explodeLine al toks = toks := by
  induction toks with
  | nil => rfl
  | cons t ts ih =>
    obtain ⟨s, rfl⟩ := h t (by simp)
    show explodeTokens al (Tok.scalar s) ++ explodeLine al ts = _
    rw [ih (fun x hx => h x (by simp [hx]))]
    rfl

lemma explodeLine_all_scalars (al : Str → Nat) (toks : List Tok) :
    ∀ t ∈ explodeLine al toks, ∃ s, t = Tok.scalar s := by
  induction toks with
  | nil => intro t ht; cases ht
  | cons x ts ih =>
    intro t ht
    rcases List.mem_append.mp ht with h1 | h2
    · cases x with
      | scalar s =>
        rcases List.mem_singleton.mp h1 with rfl
        exact ⟨s, rfl⟩
      | arr nm es => exact explodeVals_scalars nm es (al nm) t h1
    · exact ih t h2

lemma explodeLine_wf (al : Str → Nat) (toks : List Tok)
    (h : wfLine toks = true) : wfLine (explodeLine al toks) = true := by
  induction toks with
  | nil => rfl
  | cons x ts ih =>
    simp only [wfLine, List.all_cons, Bool.and_eq_true] at h
    have hrec := ih h.2
    show (explodeTokens al x ++ explodeLine al ts).all wfTok = true
    rw [List.all_append, Bool.and_eq_true]
    refine ⟨?_, hrec⟩
    cases x with
    | scalar s =>
      rw [show explodeTokens al (Tok.scalar s) = [Tok.scalar s] from rfl]
      simpa using h.1
    | arr nm es =>
      obtain ⟨hnmok, -, heselem⟩ := arrTok_facts h.1
      rw [List.all_eq_true]
      exact explodeVals_wf nm es (al nm) hnmok heselem

lemma explodeLine_splice (al : Str → Nat) (pre rest : List Tok)
    (nm : Str) (es : List Str)
    (hpre : ∀ t ∈ pre, ∃ s, t = Tok.scalar s) :
    explodeLine al (pre ++ explodeVals nm es (al nm) ++ rest)
      = explodeLine al (pre ++ Tok.arr nm es :: rest) := by
  rw [explodeLine_append, explodeLine_append, explodeLine_append,
    explodeLine_scalars al pre hpre,
    explodeLine_scalars al _ (explodeVals_scalars nm es (al nm))]
  show pre ++ explodeVals nm es (al nm) ++ explodeLine al rest
    = pre ++ (explodeVals nm es (al nm) ++ explodeLine al rest)
  rw [List.append_assoc]

lemma arrayCount_append : ∀ (as bs : List Tok),
    arrayCount (as ++ bs) = arrayCount as + arrayCount bs := by
  intro as bs
  induction as with
  | nil => simp [arrayCount]
  | cons t ts ih =>
    cases t with
    | scalar s => show arrayCount (ts ++ bs) = _; rw [ih]; rfl
    | arr nm es =>
      show arrayCount (ts ++ bs) + 1 = arrayCount ts + 1 + arrayCount bs
      rw [ih]
      omega

lemma arrayCount_scalars (toks : List Tok)
    (h : ∀ t ∈ toks, ∃ s, t = Tok.scalar s) : arrayCount toks = 0 := by
  induction toks with
  | nil => rfl
  | cons t ts ih =>
    obtain ⟨s, rfl⟩ := h t (by simp)
    show arrayCount ts = 0
    exact ih (fun x hx => h x (by simp [hx]))

lemma count_lbrace_renderTok (t : Tok) (h : wfTok t = true) :
    (renderTok t).count lbrace = arrayCount [t] := by
  cases t with
  | scalar s =>
    show s.count lbrace = 0
    rw [List.count_eq_zero]
    intro hc
    simp only [wfTok, scalarOk, Bool.and_eq_true, List.all_eq_true] at h
    exact (plainChar_ne (h.2 lbrace hc)).2.1 rfl
  | arr nm es =>
    obtain ⟨hnmok, hesne, heselem⟩ := arrTok_facts h
    obtain ⟨-, hJbr⟩ := sepJoin_facts es heselem hesne
    show (nm ++ '=' :: lbrace :: (sepJoin es ++ [rbrace])).count lbrace = 1
    rw [List.count_append, List.count_cons, List.count_cons, List.count_append,
      List.count_cons]
    have h1 : nm.count lbrace = 0 := by
      rw [List.count_eq_zero]
      intro hc
      exact (alnumU_ne ((nameOk_facts hnmok).2 lbrace hc)).2.2.1 rfl
    have h2 : (sepJoin es).count lbrace = 0 := by
      rw [List.count_eq_zero]
      intro hc
      exact (hJbr lbrace hc).1 rfl
    have h3 : (List.nil : Str).count lbrace = 0 := rfl
    rw [h1, h2, h3]
    simp [lbrace, rbrace]

lemma count_lbrace_renderToks (toks : List Tok) (h : wfLine toks = true) :
    (renderToks toks).count lbrace = arrayCount toks := by
  induction toks with
  | nil => rfl
  | cons t ts ih =>
    simp only [wfLine, List.all_cons, Bool.and_eq_true] at h
    cases ts with
    | nil =>
      show (renderTok t).count lbrace = arrayCount [t]
      exact count_lbrace_renderTok t h.1
    | cons u ts2 =>
      have hr : renderToks (t :: u :: ts2) = renderTok t ++ ' ' :: renderToks (u :: ts2) := by
        unfold renderToks
        rw [List.map_cons, sepJoin_cons _ _ (by simp)]
      rw [hr, List.count_append, List.count_cons, count_lbrace_renderTok t h.1,
        ih h.2]
      have hsp : ((' ' : Char) == lbrace) = false := by decide
      rw [hsp]
      cases t with
      | scalar s => show 0 + (arrayCount (u :: ts2) + 0) = arrayCount (u :: ts2); omega
      | arr nm es =>
        show 1 + (arrayCount (u :: ts2) + 0) = arrayCount (u :: ts2) + 1
        omega

lemma explodeFuel_render (al : Str → Nat) :
    ∀ (f : Nat) (toks : List Tok), wfLine toks = true → arrayCount toks < f →
      explodeFuel al f (renderToks toks) = renderToks (explodeLine al toks) := by
  intro f
  induction f with
  | zero => intro toks _ h2; omega
  | succ f ih =>
    intro toks hwf hcount
    by_cases hall : ∀ t ∈ toks, ∃ s, t = Tok.scalar s
    · have hwfall : ∀ t ∈ toks, wfTok t = true := by
        intro t ht
        simp only [wfLine, List.all_eq_true] at hwf
        exact hwf t ht
      have hnone : explodeStep al (renderToks toks) = none := by
        unfold explodeStep
        rw [searchArrAux_none [] _ (renderToks_scalar_no_lbrace toks hall hwfall)]
      show explodeFuel al (f + 1) (renderToks toks) = _
      simp only [explodeFuel, hnone]
      rw [explodeLine_scalars al toks hall]
    · obtain ⟨pre, nm, es, rest, rfl, hpre⟩ := exists_first_arr toks hall
      have hstep := explodeStep_render al pre nm es rest hpre hwf
      show explodeFuel al (f + 1) (renderToks (pre ++ Tok.arr nm es :: rest)) = _
      simp only [explodeFuel, hstep]
      have hw3 := wfLine_split pre _ rest hwf
      obtain ⟨hnmok, hesne, heselem⟩ := arrTok_facts hw3.2.1
      have hwf2 : wfLine (pre ++ explodeVals nm es (al nm) ++ rest) = true := by
        simp only [wfLine, List.all_append, Bool.and_eq_true, List.all_eq_true]
        exact ⟨⟨hw3.1, explodeVals_wf nm es (al nm) hnmok heselem⟩, hw3.2.2⟩
      have hcount2 : arrayCount (pre ++ explodeVals nm es (al nm) ++ rest) < f := by
        rw [arrayCount_append, arrayCount_append, arrayCount_scalars pre hpre,
          arrayCount_scalars _ (explodeVals_scalars nm es (al nm))]
        rw [arrayCount_append] at hcount
        have he : arrayCount (Tok.arr nm es :: rest) = arrayCount rest + 1 := rfl
        rw [he] at hcount
        omega
      rw [ih _ hwf2 hcount2]
      congr 1
      exact explodeLine_splice al pre rest nm es hpre

lemma explode_render_eq (al : Str → Nat) (toks : List Tok)
    (h : wfLine toks = true) :
    trace_parser_explode_array (renderToks toks) al
      = renderToks (explodeLine al toks) := by
  unfold trace_parser_explode_array
  rw [count_lbrace_renderToks toks h]
  exact explodeFuel_render al (arrayCount toks + 1) toks h (by omega)

/-- Claim C1: on a well-formed line, the explode operation replaces every
array token with the indexed scalars of its elements, appending zero-valued
slots up to the recorded width when the element count falls short; the
rest of the line is unchanged.  `explodeVals` spells out the emitted
scalars: element `v` at index `i` becomes the token `name i = v`, and
indices from the element count up to `array_lengths name` become
`name i = 0`. -/
theorem claim1_explode_array (al : Str → Nat) (toks : List Tok)
    (h : wfLine toks = true) :
    trace_parser_explode_array (renderToks toks) al
      = renderToks (explodeLine al toks) :=
  explode_render_eq al toks h

theorem claim1_explode_array_witness :
    wfLine c1toks = true ∧
    trace_parser_explode_array (renderToks c1toks) c1len
      = renderToks (explodeLine c1len c1toks) ∧
    renderToks c1toks = "load=\x7b1 2\x7d".toList ∧
    renderToks (explodeLine c1len c1toks)
      = "load0=1 load1=2 load2=0 load3=0".toList :=
  ⟨by decide, claim1_explode_array c1len c1toks (by decide), by decide, by decide⟩

/-- Claim C10: on well-formed input the rewrite loop of
`trace_parser_explode_array` terminates: every successful iteration
strictly decreases the number of open braces, and the loop reaches a state
in which the search finds no further match. -/
theorem claim10_explode_terminates (al : Str → Nat) (toks : List Tok)
    (h : wfLine toks = true) :
    (∀ s2, explodeStep al (renderToks toks) = some s2 →
      s2.count lbrace < (renderToks toks).count lbrace) ∧
    explodeStep al (trace_parser_explode_array (renderToks toks) al) = none := by
  constructor
  · intro s2 hs2
    by_cases hall : ∀ t ∈ toks, ∃ s, t = Tok.scalar s
    · have hwfall : ∀ t ∈ toks, wfTok t = true := by
        intro t ht
        simp only [wfLine, List.all_eq_true] at h
        exact h t ht
      have hnone : explodeStep al (renderToks toks) = none := by
        unfold explodeStep
        rw [searchArrAux_none [] _ (renderToks_scalar_no_lbrace toks hall hwfall)]
      rw [hnone] at hs2
      cases hs2
    · obtain ⟨pre, nm, es, rest, rfl, hpre⟩ := exists_first_arr toks hall
      rw [explodeStep_render al pre nm es rest hpre h] at hs2
      have hs2' : s2 = renderToks (pre ++ explodeVals nm es (al nm) ++ rest) :=
        (Option.some.inj hs2).symm
      have hw3 := wfLine_split pre _ rest h
      obtain ⟨hnmok, hesne, heselem⟩ := arrTok_facts hw3.2.1
      have hwf2 : wfLine (pre ++ explodeVals nm es (al nm) ++ rest) = true := by
        simp only [wfLine, List.all_append, Bool.and_eq_true, List.all_eq_true]
        exact ⟨⟨hw3.1, explodeVals_wf nm es (al nm) hnmok heselem⟩, hw3.2.2⟩
      rw [hs2', count_lbrace_renderToks _ h, count_lbrace_renderToks _ hwf2]
      rw [arrayCount_append, arrayCount_append, arrayCount_scalars pre hpre,
        arrayCount_scalars _ (explodeVals_scalars nm es (al nm)),
        arrayCount_append,
        show arrayCount (Tok.arr nm es :: rest) = arrayCount rest + 1 from rfl]
      omega
  · rw [explode_render_eq al toks h]
    have hwfall : ∀ t ∈ explodeLine al toks, wfTok t = true := by
      have hw := explodeLine_wf al toks h
      intro t ht
      simp only [wfLine, List.all_eq_true] at hw
      exact hw t ht
    unfold explodeStep
    rw [searchArrAux_none [] _ (renderToks_scalar_no_lbrace _
      (explodeLine_all_scalars al toks) hwfall)]

theorem claim10_explode_terminates_witness :
    wfLine c10toks = true ∧
    ((∀ s2, explodeStep c10len (renderToks c10toks) = some s2 →
      s2.count lbrace < (renderToks c10toks).count lbrace) ∧
    explodeStep c10len (trace_parser_explode_array (renderToks c10toks) c10len)
      = none) ∧
    (renderToks c10toks).count lbrace = 2 :=
  ⟨by decide, claim10_explode_terminates c10len c10toks (by decide), by decide⟩

/-! ### The prescanner regex on rendered lines -/

lemma matchNamedAt_token (nm J tail : Str)
    (hnm : nm ≠ []) (hnmA : ∀ c ∈ nm, alnumU c = true)
    (hJne : J ≠ []) (hJ : ∀ c ∈ J, c ≠ lbrace ∧ c ≠ rbrace) :
    matchNamedAt (nm ++ '=' :: lbrace :: (J ++ rbrace :: tail))
      = some (nm, J, nm.length + 2 + (J.length + 1)) := by
  have hr : (nm ++ '=' :: lbrace :: (J ++ rbrace :: tail)).takeWhile alnumU
      = nm := by
    rw [takeWhile_append_all _ _ hnmA, takeWhile_cons_neg _ (by decide),
      List.append_nil]
  have hel : ((nm ++ '=' :: lbrace :: (J ++ rbrace :: tail)).drop
        (nm.length + 2)).takeWhile (fun c => decide (c ≠ rbrace)) = J := by
    rw [drop_name2, takeWhile_append_all _ _
        (fun x hx => by simp [(hJ x hx).2]),
      takeWhile_cons_neg _ (by decide), List.append_nil]
  have hne2 : nm.isEmpty = false := by
    cases nm with
    | nil => exact absurd rfl hnm
    | cons a b => rfl
  simp only [matchNamedAt, hr]
  rw [if_neg (by rw [hne2]; simp)]
  rw [if_pos ⟨getElem?_name_end nm '=' _, getElem?_name_end2 nm '=' lbrace _⟩]
  rw [drop_name2, arrTailLen_eq J tail hJne (fun c hc => (hJ c hc).2)]
  rw [takeWhile_append_all _ _ (fun x hx => by simp [(hJ x hx).2]),
    takeWhile_cons_neg _ (by decide), List.append_nil]

lemma matchNamedAt_none_free (t : Str) (h : ∀ c ∈ t, c ≠ lbrace) :
    matchNamedAt t = none := by
  simp only [matchNamedAt]
  by_cases he : (t.takeWhile alnumU).isEmpty = true
  · rw [if_pos he]
  · rw [if_neg he, if_neg]
    rintro ⟨-, h2⟩
    exact h lbrace (List.getElem?_mem h2) rfl

lemma matchNamedAt_pre_none (l0 : Str) (s₂ : Str)
    (hl : ∀ c ∈ l0 ++ [' '], c ≠ lbrace) :
    matchNamedAt ((l0 ++ [' ']) ++ s₂) = none := by
  have hstop : ∃ x ∈ l0 ++ [' '], alnumU x = false :=
    ⟨' ', by simp, by decide⟩
  have hr : ((l0 ++ [' ']) ++ s₂).takeWhile alnumU
      = (l0 ++ [' ']).takeWhile alnumU := takeWhile_append_stop _ _ hstop
  have hrlen : ((l0 ++ [' ']).takeWhile alnumU).length ≤ l0.length := by
    by_cases hs : ∃ x ∈ l0, alnumU x = false
    · rw [takeWhile_append_stop _ _ hs]
      exact length_takeWhile_le l0
    · have hall : ∀ x ∈ l0, alnumU x = true := by
        intro x hx
        cases hp : alnumU x with
        | false => exact absurd ⟨x, hx, hp⟩ hs
        | true => rfl
      rw [takeWhile_append_all _ _ hall, takeWhile_cons_neg _ (by decide),
        List.append_nil]
  simp only [matchNamedAt, hr]
  by_cases he : ((l0 ++ [' ']).takeWhile alnumU).isEmpty = true
  · rw [if_pos he]
  · rw [if_neg he, if_neg]
    rintro ⟨h1, h2⟩
    set rl := ((l0 ++ [' ']).takeWhile alnumU).length with hrl
    by_cases hcase : rl + 1 < (l0 ++ [' ']).length
    · rw [List.getElem?_append_left hcase] at h2
      exact hl lbrace (List.getElem?_mem h2) rfl
    · have hlen : (l0 ++ [' ']).length = l0.length + 1 := by simp
      have hrleq : rl = l0.length := by omega
      rw [List.getElem?_append_left (by omega), hrleq,
        getElem?_name_end l0 ' ' []] at h1
      exact absurd (Option.some.inj h1) (by decide)

lemma searchNamedAux_none : ∀ (s : Str), (∀ c ∈ s, c ≠ lbrace) →
    searchNamedAux s = none := by
  intro s
  induction s with
  | nil => intro _; rfl
  | cons c cs ih =>
    intro h
    have hm : matchNamedAt (c :: cs) = none :=
      matchNamedAt_none_free _ h
    simp only [searchNamedAux, hm]
    exact ih (fun x hx => h x (by simp [hx]))

lemma searchNamedAux_skip :
    ∀ (s₁ : Str), (∀ c ∈ s₁, c ≠ lbrace) → (s₁ = [] ∨ ∃ s₀, s₁ = s₀ ++ [' ']) →
      ∀ (s₂ : Str), searchNamedAux (s₁ ++ s₂) = searchNamedAux s₂ := by
  intro s₁
  induction s₁ with
  | nil => intro _ _ s₂; rfl
  | cons c cs ih =>
    intro h1 h2 s₂
    obtain ⟨s₀, hs₀⟩ := h2.resolve_left (by simp)
    have hm : matchNamedAt (c :: cs ++ s₂) = none := by
      rw [show c :: cs ++ s₂ = (c :: cs) ++ s₂ from rfl, hs₀]
      refine matchNamedAt_pre_none s₀ s₂ ?_
      rw [← hs₀]
      exact h1
    rw [show (c :: cs) ++ s₂ = c :: (cs ++ s₂) from rfl]
    simp only [searchNamedAux]
    rw [show c :: (cs ++ s₂) = (c :: cs) ++ s₂ from rfl, hs₀]
    rw [← hs₀, hm]
    exact ih (fun x hx => h1 x (by simp [hx]))
      (by
        cases s₀ with
        | nil =>
          left
          simpa using congrArg (List.drop 1) hs₀
        | cons d s₀' =>
          right
          refine ⟨s₀', ?_⟩
          simpa using congrArg (List.drop 1) hs₀)
      s₂

lemma searchNamedAux_token (nm J tail : Str)
    (hnm : nm ≠ []) (hnmA : ∀ c ∈ nm, alnumU c = true)
    (hJne : J ≠ []) (hJ : ∀ c ∈ J, c ≠ lbrace ∧ c ≠ rbrace) :
    searchNamedAux (nm ++ '=' :: lbrace :: (J ++ rbrace :: tail))
      = some (nm, J, tail) := by
  have hdrop : (nm ++ '=' :: lbrace :: (J ++ rbrace :: tail)).drop
      (nm.length + 2 + (J.length + 1)) = tail := by
    rw [show nm.length + 2 + (J.length + 1) = nm.length + J.length + 3 from by
      omega]
    rw [token_restructure, ← token_length nm J]
    exact List.drop_left _ _
  obtain ⟨c0, nm', rfl⟩ : ∃ c0 nm', nm = c0 :: nm' := by
    cases nm with
    | nil => exact absurd rfl hnm
    | cons a b => exact ⟨a, b, rfl⟩
  have hm := matchNamedAt_token (c0 :: nm') J tail hnm hnmA hJne hJ
  show searchNamedAux (c0 :: (nm' ++ '=' :: lbrace :: (J ++ rbrace :: tail))) = _
  simp only [searchNamedAux]
  rw [show c0 :: (nm' ++ '=' :: lbrace :: (J ++ rbrace :: tail))
      = (c0 :: nm') ++ '=' :: lbrace :: (J ++ rbrace :: tail) from rfl, hm]
  show some (c0 :: nm', J,
      ((c0 :: nm') ++ '=' :: lbrace :: (J ++ rbrace :: tail)).drop
        ((c0 :: nm').length + 2 + (J.length + 1))) = _
  rw [hdrop]

lemma occLine_append : ∀ (as bs : List Tok),
    occLine (as ++ bs) = occLine as ++ occLine bs := by
  intro as bs
  induction as with
  | nil => rfl
  | cons t ts ih =>
    cases t with
    | scalar s =>
      show occLine (ts ++ bs) = occLine ts ++ occLine bs
      exact ih
    | arr nm es =>
      show (nm, es.length) :: occLine (ts ++ bs)
        = ((nm, es.length) :: occLine ts) ++ occLine bs
      rw [ih]
      rfl

lemma occLine_scalars (toks : List Tok)
    (h : ∀ t ∈ toks, ∃ s, t = Tok.scalar s) : occLine toks = [] := by
  induction toks with
  | nil => rfl
  | cons t ts ih =>
    obtain ⟨s, rfl⟩ := h t (by simp)
    show occLine ts = []
    exact ih (fun x hx => h x (by simp [hx]))

lemma scanLineFuel_render :
    ∀ (f : Nat) (s₁ : Str) (toks : List Tok), wfLine toks = true →
      (∀ c ∈ s₁, c ≠ lbrace) → (s₁ = [] ∨ ∃ s₀, s₁ = s₀ ++ [' ']) →
      arrayCount toks < f →
      scanLineFuel f (s₁ ++ (renderToks toks ++ ['\n'])) = occLine toks := by
  intro f
  induction f with
  | zero => intro _ toks _ _ _ h; omega
  | succ f ih =>
    intro s₁ toks hwf hbr hshape hcount
    by_cases hall : ∀ t ∈ toks, ∃ s, t = Tok.scalar s
    · have hwfall : ∀ t ∈ toks, wfTok t = true := by
        intro t ht
        simp only [wfLine, List.all_eq_true] at hwf
        exact hwf t ht
      have hfree : ∀ c ∈ s₁ ++ (renderToks toks ++ ['\n']), c ≠ lbrace := by
        intro c hc
        rcases List.mem_append.mp hc with h1 | h2
        · exact hbr c h1
        · rcases List.mem_append.mp h2 with h3 | h4
          · exact renderToks_scalar_no_lbrace toks hall hwfall c h3
          · rcases List.mem_singleton.mp h4 with rfl
            decide
      show scanLineFuel (f + 1) _ = _
      simp only [scanLineFuel, searchNamedAux_none _ hfree]
      rw [occLine_scalars toks hall]
    · obtain ⟨pre, nm, es, rest, rfl, hpre⟩ := exists_first_arr toks hall
      have hw3 := wfLine_split pre _ rest hwf
      obtain ⟨hnmok, hesne, heselem⟩ := arrTok_facts hw3.2.1
      obtain ⟨hnmne, hnmA⟩ := nameOk_facts hnmok
      obtain ⟨hJne, hJbr⟩ := sepJoin_facts es heselem hesne
      have hstr : s₁ ++ (renderToks (pre ++ Tok.arr nm es :: rest) ++ ['\n'])
          = (s₁ ++ (if pre.isEmpty then [] else renderToks pre ++ [' '])) ++
            (nm ++ '=' :: lbrace :: (sepJoin es ++ rbrace ::
              ((if rest.isEmpty then [] else ' ' :: renderToks rest) ++ ['\n']))) := by
        rw [renderToks_arr_shape pre rest nm es]
        simp [List.append_assoc]
      have hs₁br : ∀ c ∈ s₁ ++ (if pre.isEmpty then ([] : Str)
          else renderToks pre ++ [' ']), c ≠ lbrace := by
        intro c hc
        rcases List.mem_append.mp hc with h1 | h2
        · exact hbr c h1
        · by_cases hp : pre = []
          · rw [if_pos (by simp [hp])] at h2
            cases h2
          · rw [if_neg (by simp [hp])] at h2
            rcases List.mem_append.mp h2 with h3 | h4
            · exact renderToks_scalar_no_lbrace pre hpre hw3.1 c h3
            · rcases List.mem_singleton.mp h4 with rfl
              decide
      have hs₁shape : s₁ ++ (if pre.isEmpty then ([] : Str)
            else renderToks pre ++ [' ']) = []
          ∨ ∃ s₀, s₁ ++ (if pre.isEmpty then ([] : Str)
              else renderToks pre ++ [' ']) = s₀ ++ [' '] := by
        by_cases hp : pre = []
        · rw [if_pos (by simp [hp])]
          rcases hshape with h1 | ⟨s₀, h1⟩
          · left; simp [h1]
          · right; exact ⟨s₀, by simp [h1]⟩
        · right
          refine ⟨s₁ ++ renderToks pre, ?_⟩
          rw [if_neg (by simp [hp])]
          simp [List.append_assoc]
      have hsplitJ : splitOnSpace (sepJoin es) = es :=
        splitSep_sepJoin es hesne
          (fun e he c hc => (plainChar_ne ((elemOk_facts (heselem e he)).2 c hc)).1)
      have hocc : occLine (pre ++ Tok.arr nm es :: rest)
          = (nm, es.length) :: occLine rest := by
        rw [occLine_append, occLine_scalars pre hpre]
        rfl
      rw [hstr]
      show scanLineFuel (f + 1) _ = _
      simp only [scanLineFuel]
      rw [searchNamedAux_skip _ hs₁br hs₁shape _,
        searchNamedAux_token nm (sepJoin es) _ hnmne hnmA hJne hJbr]
      rw [hocc]
      show (nm, (splitOnSpace (sepJoin es)).length) :: scanLineFuel f
          ((if rest.isEmpty then [] else ' ' :: renderToks rest) ++ ['\n'])
        = (nm, es.length) :: occLine rest
      rw [hsplitJ]
      have hcount2 : arrayCount rest < f := by
        rw [arrayCount_append, arrayCount_scalars pre hpre,
          show arrayCount (Tok.arr nm es :: rest) = arrayCount rest + 1 from rfl]
          at hcount
        omega
      congr 1
      by_cases hr : rest = []
      · subst hr
        rw [if_pos (by simp)]
        have hrec := ih [] [] rfl (by intro c hc; cases hc) (Or.inl rfl)
          (by omega)
        simpa using hrec
      · rw [if_neg (by simp [hr])]
        have hwfr : wfLine rest = true := by
          simp only [wfLine, List.all_eq_true]
          exact hw3.2.2
        have hsp : ∀ c ∈ ([' '] : Str), c ≠ lbrace := by
          intro c hc
          rcases List.mem_singleton.mp hc with rfl
          decide
        have hrec := ih [' '] rest hwfr hsp (Or.inr ⟨[], rfl⟩) hcount2
        simpa using hrec

lemma scanLine_render (toks : List Tok) (h : wfLine toks = true) :
    scanLine (fileLine toks) = occLine toks := by
  unfold scanLine fileLine
  have hc : (renderToks toks ++ ['\n']).count lbrace = arrayCount toks := by
    rw [List.count_append, count_lbrace_renderToks toks h]
    have h0 : (['\n'] : Str).count lbrace = 0 := by decide
    rw [h0]
    omega
  rw [hc]
  have hrec := scanLineFuel_render (arrayCount toks + 1) [] toks h
    (by intro c hc2; cases hc2) (Or.inl rfl) (by omega)
  simpa using hrec

/-! ### The width dictionary fold -/

lemma foldl_max_init : ∀ (l : List Nat) (a : Nat),
    List.foldl max a l = max a (List.foldl max 0 l) := by
  intro l
  induction l with
  | nil => intro a; simp
  | cons c cs ih =>
    intro a
    show List.foldl max (max a c) cs = max a (List.foldl max (max 0 c) cs)
    rw [ih (max a c), ih (max 0 c)]
    omega

lemma listMax_cons (a : Nat) (l : List Nat) :
    listMax (a :: l) = max a (listMax l) := by
  unfold listMax
  show List.foldl max (max 0 a) l = _
  rw [foldl_max_init l (max 0 a)]
  omega

lemma listMax_append (l1 l2 : List Nat) :
    listMax (l1 ++ l2) = max (listMax l1) (listMax l2) := by
  unfold listMax
  rw [List.foldl_append]
  rw [foldl_max_init l2 (List.foldl max 0 l1)]

lemma le_listMax {x : Nat} : ∀ {l : List Nat}, x ∈ l → x ≤ listMax l := by
  intro l
  induction l with
  | nil => intro h; cases h
  | cons a as ih =>
    intro h
    rw [listMax_cons]
    rcases List.mem_cons.mp h with rfl | h2
    · omega
    · have := ih h2
      omega

lemma dictFind_cons (k : Str) (w : Nat) (rest : List (Str × Nat))
    (key : Str) :
    dictFind ((k, w) :: rest) key
      = if k = key then some w else dictFind rest key := rfl

lemma countsIn_cons (n : Str) (k : Nat) (rest : List (Str × Nat)) (nm : Str) :
    countsIn ((n, k) :: rest) nm
      = if n = nm then k :: countsIn rest nm else countsIn rest nm := rfl

lemma occCountsFor_cons (uw : Str) (l : List Tok) (rest : List (List Tok))
    (nm : Str) :
    occCountsFor uw (l :: rest) nm
      = if lineSelected uw (fileLine l) = true then
          countsIn (occLine l) nm ++ occCountsFor uw rest nm
        else occCountsFor uw rest nm := rfl

lemma dictFind_dictSet (m : List (Str × Nat)) (key : Str) (v : Nat)
    (key2 : Str) :
    dictFind (dictSet m key v) key2
      = if key = key2 then some v else dictFind m key2 := by
  induction m with
  | nil =>
    show dictFind [(key, v)] key2 = _
    rw [dictFind_cons]
  | cons p rest ih =>
    obtain ⟨k, w⟩ := p
    show dictFind (if k = key then (k, v) :: rest
        else (k, w) :: dictSet rest key v) key2 = _
    by_cases hk : k = key
    · subst hk
      rw [if_pos rfl, dictFind_cons, dictFind_cons]
      by_cases h2 : k = key2 <;> simp [h2]
    · rw [if_neg hk, dictFind_cons, ih, dictFind_cons]
      by_cases h2 : k = key2
      · have h3 : ¬ key = key2 := fun hc => hk (hc.trans h2.symm).symm
        simp [h2, h3]
      · by_cases h3 : key = key2 <;> simp [h2, h3]

lemma dictFind_append (m1 m2 : List (Str × Nat)) (key : Str) :
    dictFind (m1 ++ m2) key
      = match dictFind m1 key with
        | some v => some v
        | none => dictFind m2 key := by
  induction m1 with
  | nil => rfl
  | cons p rest ih =>
    obtain ⟨k, w⟩ := p
    show (if k = key then some w else dictFind (rest ++ m2) key) = _
    by_cases hk : k = key
    · rw [if_pos hk]
      show _ = (match (if k = key then some w else dictFind rest key) with
        | some v => some v | none => dictFind m2 key)
      rw [if_pos hk]
    · rw [if_neg hk, ih]
      show _ = (match (if k = key then some w else dictFind rest key) with
        | some v => some v | none => dictFind m2 key)
      rw [if_neg hk]

lemma dictFind_updateMax (m : List (Str × Nat)) (nm : Str) (k : Nat)
    (key : Str) :
    dictFind (updateMax m nm k) key
      = if nm = key then some (max (dictGet m nm) k) else dictFind m key := by
  unfold updateMax
  by_cases hmem : (dictFind m nm).isSome = true
  · rw [if_pos hmem]
    obtain ⟨cur, hcur⟩ := Option.isSome_iff_exists.mp hmem
    have hget : dictGet m nm = cur := by
      unfold dictGet
      rw [hcur]
      rfl
    by_cases hgt : k > dictGet m nm
    · rw [if_pos hgt, dictFind_dictSet]
      by_cases hk : nm = key
      · rw [if_pos hk, if_pos hk]
        congr 1
        omega
      · rw [if_neg hk, if_neg hk]
    · rw [if_neg hgt]
      by_cases hk : nm = key
      · rw [if_pos hk, ← hk, hcur, hget]
        congr 1
        omega
      · rw [if_neg hk]
  · rw [if_neg hmem]
    have hnone : dictFind m nm = none := by
      cases h : dictFind m nm with
      | none => rfl
      | some v => rw [h] at hmem; simp at hmem
    have hget0 : dictGet m nm = 0 := by
      unfold dictGet
      rw [hnone]
      rfl
    have hfind1 : dictFind (m ++ [(nm, 0)]) nm = some 0 := by
      rw [dictFind_append, hnone]
      show dictFind [(nm, 0)] nm = some 0
      unfold dictFind
      rw [if_pos rfl]
    have hget1 : dictGet (m ++ [(nm, 0)]) nm = 0 := by
      unfold dictGet
      rw [hfind1]
      rfl
    have hother : ∀ key2, nm ≠ key2 →
        dictFind (m ++ [(nm, 0)]) key2 = dictFind m key2 := by
      intro key2 hne
      rw [dictFind_append]
      cases h : dictFind m key2 with
      | some v => rfl
      | none =>
        show dictFind [(nm, 0)] key2 = none
        unfold dictFind
        rw [if_neg hne]
        rfl
    by_cases hgt : k > dictGet (m ++ [(nm, 0)]) nm
    · rw [if_pos hgt, dictFind_dictSet]
      by_cases hk : nm = key
      · rw [if_pos hk, if_pos hk, hget0]
        congr 1
        rw [hget1] at hgt
        omega
      · rw [if_neg hk, if_neg hk]
        exact hother key hk
    · rw [if_neg hgt]
      rw [hget1] at hgt
      have hk0 : k = 0 := by omega
      by_cases hk : nm = key
      · rw [if_pos hk, ← hk, hfind1, hget0, hk0]
        rfl
      · rw [if_neg hk]
        exact hother key hk

lemma dictFind_foldl_updateMax :
    ∀ (occs : List (Str × Nat)) (m : List (Str × Nat)) (key : Str),
      dictFind (occs.foldl (fun m p => updateMax m p.1 p.2) m) key
        = combOpt (dictFind m key) (countsIn occs key) := by
  intro occs
  induction occs with
  | nil => intro m key; rfl
  | cons p rest ih =>
    intro m key
    obtain ⟨n, k⟩ := p
    show dictFind (rest.foldl _ (updateMax m n k)) key = _
    rw [ih, dictFind_updateMax]
    by_cases hn : n = key
    · rw [if_pos hn]
      subst hn
      rw [show countsIn ((n, k) :: rest) n = k :: countsIn rest n from by
        rw [countsIn_cons, if_pos rfl]]
      unfold combOpt
      by_cases hc : countsIn rest n = []
      · rw [if_pos hc, if_neg (by simp)]
        rw [listMax_cons, hc]
        show some (max (dictGet m n) k) = some (max ((dictFind m n).getD 0) (max k (listMax [])))
        unfold dictGet
        congr 1
        show max ((dictFind m n).getD 0) k = _
        rw [show listMax [] = 0 from rfl]
        omega
      · rw [if_neg hc, if_neg (by simp)]
        rw [listMax_cons]
        simp only [Option.getD_some]
        unfold dictGet
        congr 1
        omega
    · rw [if_neg hn]
      rw [show countsIn ((n, k) :: rest) key = countsIn rest key from by
        rw [countsIn_cons, if_neg hn]]

lemma combOpt_append (o : Option Nat) (c1 c2 : List Nat) :
    combOpt (combOpt o c1) c2 = combOpt o (c1 ++ c2) := by
  unfold combOpt
  by_cases h1 : c1 = []
  · subst h1
    simp
  · by_cases h2 : c2 = []
    · subst h2
      rw [if_pos rfl, if_neg h1, if_neg (by simp [h1])]
      simp
    · rw [if_neg h2, if_neg h1, if_neg (by simp [h1])]
      simp only [Option.getD_some]
      rw [listMax_append]
      congr 1
      omega

lemma get_trace_render_aux (uw : Str) :
    ∀ (ds : List (List Tok)) (m : List (Str × Nat)) (key : Str),
      (∀ l ∈ ds, wfLine l = true) →
      dictFind (ds.foldl (fun ret l =>
          if lineSelected uw (fileLine l) = true then
            (scanLine (fileLine l)).foldl (fun m p => updateMax m p.1 p.2) ret
          else ret) m) key
        = combOpt (dictFind m key) (occCountsFor uw ds key) := by
  intro ds
  induction ds with
  | nil => intro m key _; rfl
  | cons l rest ih =>
    intro m key h
    show dictFind (rest.foldl _
        (if lineSelected uw (fileLine l) = true then _ else m)) key = _
    by_cases hsel : lineSelected uw (fileLine l) = true
    · rw [if_pos hsel, ih _ _ (fun x hx => h x (by simp [hx])),
        dictFind_foldl_updateMax, scanLine_render l (h l (by simp))]
      rw [show occCountsFor uw (l :: rest) key
          = countsIn (occLine l) key ++ occCountsFor uw rest key from by
        rw [occCountsFor_cons, if_pos hsel]]
      exact combOpt_append _ _ _
    · rw [if_neg hsel, ih _ _ (fun x hx => h x (by simp [hx]))]
      rw [show occCountsFor uw (l :: rest) key = occCountsFor uw rest key from by
        rw [occCountsFor_cons, if_neg hsel]]

lemma get_trace_render (uw : Str) (ds : List (List Tok))
    (h : ∀ l ∈ ds, wfLine l = true) (key : Str) :
    dictFind (get_trace_array_lengths uw (ds.map fileLine)) key
      = combOpt none (occCountsFor uw ds key) := by
  unfold get_trace_array_lengths
  rw [List.foldl_map]
  exact get_trace_render_aux uw ds [] key h

/-- Claim C2: the prescanner maps each array field name seen in brace form
on a selected line to the maximum, over all selected lines and all
occurrences on them, of the number of whitespace-separated elements, and
it holds no entry for names never seen in brace form. -/
theorem claim2_prescan_widths (uw : Str) (ds : List (List Tok))
    (h : ∀ l ∈ ds, wfLine l = true) (nm : Str) :
    dictFind (get_trace_array_lengths uw (ds.map fileLine)) nm
      = if occCountsFor uw ds nm = [] then none
        else some (listMax (occCountsFor uw ds nm)) := by
  rw [get_trace_render uw ds h nm]
  unfold combOpt
  by_cases hc : occCountsFor uw ds nm = []
  · rw [if_pos hc, if_pos hc]
  · rw [if_neg hc, if_neg hc]
    show some (max 0 _) = _
    congr 1
    omega

theorem claim2_prescan_widths_witness :
    (∀ l ∈ c2ds, wfLine l = true) ∧
    dictFind (get_trace_array_lengths c2uw (c2ds.map fileLine)) ("load".toList)
      = (if occCountsFor c2uw c2ds ("load".toList) = [] then none
          else some (listMax (occCountsFor c2uw c2ds ("load".toList)))) ∧
    dictFind (get_trace_array_lengths c2uw (c2ds.map fileLine)) ("load".toList)
      = some 3 ∧
    dictFind (get_trace_array_lengths c2uw (c2ds.map fileLine)) ("temp".toList)
      = none :=
  ⟨by decide, claim2_prescan_widths c2uw c2ds (by decide) ("load".toList),
    by decide, by decide⟩

lemma mem_countsIn (line : List Tok) (nm : Str) (es : List Str)
    (hmem : Tok.arr nm es ∈ line) :
    es.length ∈ countsIn (occLine line) nm := by
  induction line with
  | nil => cases hmem
  | cons t ts ih =>
    rcases List.mem_cons.mp hmem with heq | h2
    · rw [← heq]
      show es.length ∈ countsIn ((nm, es.length) :: occLine ts) nm
      unfold countsIn
      rw [if_pos rfl]
      simp
    · cases t with
      | scalar s => exact ih h2
      | arr n2 e2 =>
        show es.length ∈ countsIn ((n2, e2.length) :: occLine ts) nm
        unfold countsIn
        by_cases hn : n2 = nm
        · rw [if_pos hn]
          exact List.mem_cons_of_mem _ (ih h2)
        · rw [if_neg hn]
          exact ih h2

lemma mem_occCountsFor (uw : Str) (ds : List (List Tok)) (line : List Tok)
    (nm : Str) (x : Nat) (hline : line ∈ ds)
    (hsel : lineSelected uw (fileLine line) = true)
    (hx : x ∈ countsIn (occLine line) nm) : x ∈ occCountsFor uw ds nm := by
  induction ds with
  | nil => cases hline
  | cons l rest ih =>
    rcases List.mem_cons.mp hline with heq | h2
    · unfold occCountsFor
      rw [← heq, if_pos hsel]
      exact List.mem_append_left _ hx
    · unfold occCountsFor
      by_cases hs : lineSelected uw (fileLine l) = true
      · rw [if_pos hs]
        exact List.mem_append_right _ (ih h2)
      · rw [if_neg hs]
        exact ih h2

/-- Claim C3: for an array field occurrence with elements on a selected
line of the dataset, the element count never exceeds the prescanned width,
and the number of post-explosion columns produced for that occurrence
(with zero-padding) is exactly the prescanned dataset-wide width. -/
theorem claim3_padded_width (uw : Str) (ds : List (List Tok))
    (line : List Tok) (nm : Str) (es : List Str)
    (hds : ∀ l ∈ ds, wfLine l = true) (hline : line ∈ ds)
    (hsel : lineSelected uw (fileLine line) = true)
    (hmem : Tok.arr nm es ∈ line) :
    es.length ≤ dictGet (get_trace_array_lengths uw (ds.map fileLine)) nm ∧
    (explodeVals nm es
        (dictGet (get_trace_array_lengths uw (ds.map fileLine)) nm)).length
      = dictGet (get_trace_array_lengths uw (ds.map fileLine)) nm := by
  have hx : es.length ∈ occCountsFor uw ds nm :=
    mem_occCountsFor uw ds line nm es.length hline hsel
      (mem_countsIn line nm es hmem)
  have hne : occCountsFor uw ds nm ≠ [] := by
    intro hcon
    rw [hcon] at hx
    cases hx
  have hget : dictGet (get_trace_array_lengths uw (ds.map fileLine)) nm
      = listMax (occCountsFor uw ds nm) := by
    unfold dictGet
    rw [get_trace_render uw ds hds nm]
    unfold combOpt
    rw [if_neg hne]
    show max 0 _ = _
    omega
  have hle : es.length ≤ listMax (occCountsFor uw ds nm) := le_listMax hx
  constructor
  · rw [hget]
    exact hle
  · rw [explodeVals_length, hget]
    omega

theorem claim3_padded_width_witness :
    ((∀ l ∈ c3ds, wfLine l = true) ∧ c3line ∈ c3ds ∧
      lineSelected c2uw (fileLine c3line) = true ∧
      Tok.arr ("load".toList) [['1'], ['2']] ∈ c3line) ∧
    (([['1'], ['2']] : List Str).length
        ≤ dictGet (get_trace_array_lengths c2uw (c3ds.map fileLine))
            ("load".toList) ∧
      (explodeVals ("load".toList) [['1'], ['2']]
          (dictGet (get_trace_array_lengths c2uw (c3ds.map fileLine))
            ("load".toList))).length
        = dictGet (get_trace_array_lengths c2uw (c3ds.map fileLine))
            ("load".toList)) ∧
    dictGet (get_trace_array_lengths c2uw (c3ds.map fileLine)) ("load".toList)
      = 3 :=
  ⟨⟨by decide, by decide, by decide, by decide⟩,
    claim3_padded_width c2uw c3ds c3line ("load".toList) [['1'], ['2']]
      (by decide) (by decide) (by decide) (by decide),
    by decide⟩

lemma parseLoop_skip_all (uw : Str) (al : Str → Nat) :
    ∀ (lines : List Str) (header csv : Str),
      (∀ l ∈ lines, lineSelected uw l = false) →
      parseLoop uw al lines header csv = some csv := by
  intro lines
  induction lines with
  | nil => intro _ _ _; rfl
  | cons l rest ih =>
    intro header csv h
    have hl : lineSelected uw l = false := h l (by simp)
    simp only [parseLoop, hl, Bool.false_eq_true, if_false]
    exact ih header csv (fun x hx => h x (by simp [hx]))

/-- Claim C9: when neither the cached text dump nor the raw capture source
exists, construction fails with the source-unavailable error; when the
cached text dump exists, the capture step is not invoked. -/
theorem claim9_source_unavailable (txt dat : Bool) :
    (txt = false → dat = false →
      acquireTraceText txt dat = AcquireOutcome.sourceUnavailable) ∧
    (txt = true → acquireTraceText txt dat = AcquireOutcome.usedCachedText) := by
  refine ⟨fun h1 h2 => ?_, fun h => ?_⟩ <;> simp [acquireTraceText, *]

theorem claim9_source_unavailable_witness :
    acquireTraceText false false = AcquireOutcome.sourceUnavailable ∧
    acquireTraceText true false = AcquireOutcome.usedCachedText :=
  ⟨(claim9_source_unavailable false false).1 rfl rfl,
   (claim9_source_unavailable true false).2 rfl⟩

/-- Claim C8: the time shift subtracts the baseline from every Time value
and leaves the column names, the rows, the row order and the row count
unchanged. -/
theorem claim8_normalize_time (df : DataFrame) (b : ℚ) (i : Nat)
    (h : i < df.timeIdx.length) :
    (normalize_time df b).timeIdx[i]? = some (df.timeIdx.get ⟨i, h⟩ - b) ∧
    (normalize_time df b).cols = df.cols ∧
    (normalize_time df b).rows = df.rows ∧
    (normalize_time df b).timeIdx.length = df.timeIdx.length := by
  refine ⟨?_, rfl, rfl, by simp [normalize_time]⟩
  simp only [normalize_time]
  rw [List.getElem?_map, List.getElem?_eq_getElem h]
  rfl

theorem claim8_normalize_time_witness :
    ((normalize_time c8df 10).timeIdx[1]? = some (21 / 2 - 10) ∧
      (normalize_time c8df 10).cols = c8df.cols ∧
      (normalize_time c8df 10).rows = c8df.rows ∧
      (normalize_time c8df 10).timeIdx.length = c8df.timeIdx.length) ∧
    (normalize_time c8df 10).timeIdx = [0, 1 / 2, 1] :=
  ⟨claim8_normalize_time c8df 10 1 (by decide), by
    simp only [normalize_time, c8df, List.map_cons, List.map_nil]
    norm_num⟩

/-- Claim C7: when no line matches the marker, parsing completes without
error with an empty csv, and the materializer produces the explicitly
empty frame. -/
theorem claim7_zero_matches (uw : Str) (lines : List Str)
    (h : ∀ l ∈ lines, lineSelected uw l = false) :
    parse_into_csv uw lines = some [] ∧
    create_data_frame [] = ⟨[], [], []⟩ :=
  ⟨parseLoop_skip_all uw _ lines [] [] h, rfl⟩

theorem claim7_zero_matches_witness :
    (∀ l ∈ ["50.0: thermal_zone: temp=1\n".toList],
      lineSelected ("thermal_temperature:".toList) l = false) ∧
    parse_into_csv ("thermal_temperature:".toList)
      ["50.0: thermal_zone: temp=1\n".toList] = some [] ∧
    create_data_frame [] = ⟨[], [], []⟩ :=
  ⟨by decide,
   claim7_zero_matches ("thermal_temperature:".toList)
     ["50.0: thermal_zone: temp=1\n".toList] (by decide)⟩

/-- Claim C6: the single line of Example 1 parses to exactly the header
Time,id,temp and the single row 100.0,0,45000. -/
theorem claim6_example_parse :
    parse_into_csv ("thermal_temperature:".toList)
      ["100.0: thermal_temperature: id=0 temp=45000\n".toList]
      = some ("Time,id,temp\n100.0,0,45000\n".toList) := by decide

/-- Claim C4 (failing input): an empty array token that ends the payload is
not stripped, because the source pattern `pat_empty_array` requires a
trailing space; the leftover token leaks into the header and into the row
as a raw column. -/
theorem claim4_trailing_empty_array :
    subEmpty ("a=1 req_power=\x7b\x7d".toList) = "a=1 req_power=\x7b\x7d".toList ∧
    subEmpty ("req_power=\x7b\x7d a=1".toList) = "a=1".toList ∧
    parse_into_csv ("mark".toList) ["100.0: mark a=1 req_power=\x7b\x7d\n".toList]
      = some ("Time,a,req_power\n100.0,1,req_power=\x7b\x7d\n".toList) := by decide

/-- Claim C5 (counterexample): the filter is a regex search, not a literal
substring test; a marker containing a dot selects a line that does not
contain it literally. -/
theorem claim5_regex_counterexample :
    lineSelected ("a.c".toList) ("abc".toList) = true ∧
    containsSub ("a.c".toList) ("abc".toList) = false := by decide

lemma rMatchAt_lit (uw : Str) (h : ∀ c ∈ uw, c ≠ '.') :
    ∀ s : Str, rMatchAt (parsePat uw) s = prefixEq uw s := by
  induction uw with
  | nil => intro s; rfl
  | cons c cs ih =>
    intro s
    have hc : c ≠ '.' := h c (by simp)
    have hrec := ih (fun x hx => h x (by simp [hx]))
    cases s with
    | nil => simp [parsePat, rMatchAt, prefixEq, hc]
    | cons b bs =>
      simp only [parsePat, List.map_cons, if_neg hc, rMatchAt, prefixEq]
      rw [show parsePat cs = List.map _ cs from rfl] at hrec
      rw [hrec bs]

/-- Claim C5 (amended): the filter applies the marker as a regular
expression; for markers free of every Python regex metacharacter
(`isReMeta`) it coincides with unanchored case-sensitive literal substring
containment, and it is a pure function of the marker and the line.  The
hypothesis confines the statement to the fragment on which the embedding
is faithful: markers containing `+`, `*`, `[`, `(` and the like are
treated as regex syntax (or rejected) by the source and are excluded
here, not asserted about. -/
theorem claim5_literal_markers (uw line : Str)
    (h : ∀ c ∈ uw, isReMeta c = false) :
    lineSelected uw line = containsSub uw line := by
  have hd : ∀ c ∈ uw, c ≠ '.' := by
    intro c hc he
    have hm := h c hc
    rw [he] at hm
    exact absurd hm (by decide)
  clear h
  induction line with
  | nil =>
    show rMatchAt (parsePat uw) [] = uw.isEmpty
    cases uw with
    | nil => rfl
    | cons c cs => simp [rMatchAt_lit _ hd, prefixEq, List.isEmpty]
  | cons c rest ih =>
    show (rMatchAt (parsePat uw) (c :: rest) || rSearch (parsePat uw) rest)
        = (prefixEq uw (c :: rest) || containsSub uw rest)
    have ih2 : rSearch (parsePat uw) rest = containsSub uw rest := ih
    rw [rMatchAt_lit _ hd, ih2]

theorem claim5_literal_markers_witness :
    (∀ c ∈ "thermal_temperature:".toList, isReMeta c = false) ∧
    lineSelected ("thermal_temperature:".toList)
        ("100.0: thermal_temperature: id=0 temp=45000\n".toList)
      = containsSub ("thermal_temperature:".toList)
        ("100.0: thermal_temperature: id=0 temp=45000\n".toList) :=
  ⟨by decide,
   claim5_literal_markers ("thermal_temperature:".toList)
     ("100.0: thermal_temperature: id=0 temp=45000\n".toList) (by decide)⟩

end Thermal
